import Mathlib

/-!
# Residual models of `src/base/cost_functions.h`

A shallow embedding of the cost functors of `cost_functions.h` and the
properties of their residuals.

The functors are C++ templates over a scalar type `T` (plain `double` or an
automatic-differentiation jet).  The embedding keeps that: every definition is
generic over a scalar type `T` carrying field arithmetic, so it can be
evaluated on rationals and reasoned about on the reals.  Arrays `T*` of a fixed
length `n` are functions `Fin n → T`.  Scalars are idealised: there is no
rounding.  In the projection functors and in `CameraPoseCostFunction` `/` is
field division; what is proved of them compares quotients with the same
divisor or has a divisor that is not zero.  In `RelativePoseCostFunction`, whose
properties turn on a zero denominator, the divisions are checked and the
residual is an `Option`: `none` stands for the non-finite value (NaN or an
infinity) of a division by zero.

Each `operator()` writes its residuals into an output array and returns a
`bool`; the embedding returns the pair `(flag, residuals)`, and a functor's
`operator()` is the function `call` in the namespace of the functor.

What the functors take from outside the file is kept apart from them:

* the rotation helpers of `ceres/rotation.h` are written out in the namespace
  `ceres`;
* the camera model is the parameter `CameraModel`, as in the templates;
* `sqrt`, `atan2` and Eigen's `inverse()` and `LLT::matrixU()` are the fields
  of the parameter `Numerics`.  Properties that depend on what these routines
  compute assume it for the reals: `Numerics.ScalarSound` and, at a given
  covariance, `Numerics.WhiteningSound`.
-/

namespace colmap

/-! ## Rotation helpers of `ceres/rotation.h` -/

namespace ceres

/-- Modelled from the spec: `compose(q1, q2)` of section 4.1, the quaternion
product in the fixed `(w, x, y, z)` component order.  The source calls
`ceres::QuaternionProduct(z, w, zw)` of `ceres/rotation.h`, which is not part of
`src/`; the four output components are that routine's. -/
def QuaternionProduct {T : Type} [Field T] (z w : Fin 4 → T) : Fin 4 → T :=
  ![z 0 * w 0 - z 1 * w 1 - z 2 * w 2 - z 3 * w 3,
    z 0 * w 1 + z 1 * w 0 + z 2 * w 3 - z 3 * w 2,
    z 0 * w 2 - z 1 * w 3 + z 2 * w 0 + z 3 * w 1,
    z 0 * w 3 + z 1 * w 2 - z 2 * w 1 + z 3 * w 0]

/-- Modelled from the spec: `rotate(q, v)` of section 4.1, the rotation of a
3-vector by a unit quaternion.  The source calls
`ceres::UnitQuaternionRotatePoint(q, pt, result)` of `ceres/rotation.h`, which
is not part of `src/`; the intermediate products `t1 .. t9` are that
routine's.  No normalisation of `q` takes place. -/
def UnitQuaternionRotatePoint {T : Type} [Field T] (q : Fin 4 → T) (pt : Fin 3 → T) :
    Fin 3 → T :=
  let t2 := q 0 * q 1
  let t3 := q 0 * q 2
  let t4 := q 0 * q 3
  let t5 := -q 1 * q 1
  let t6 := q 1 * q 2
  let t7 := q 1 * q 3
  let t8 := -q 2 * q 2
  let t9 := q 2 * q 3
  let t1 := -q 3 * q 3
  ![2 * ((t8 + t1) * pt 0 + (t6 - t4) * pt 1 + (t3 + t7) * pt 2) + pt 0,
    2 * ((t4 + t6) * pt 0 + (t5 + t1) * pt 1 + (t9 - t2) * pt 2) + pt 1,
    2 * ((t7 - t3) * pt 0 + (t2 + t9) * pt 1 + (t5 + t8) * pt 2) + pt 2]

end ceres

/-! ## The camera model template parameter -/

/-- The `CameraModel` template parameter of the bundle adjustment functors: the
number of intrinsic parameters `kNumParams` and the static function
`WorldToImage(params, u, v, &x, &y)`, which returns the pixel `(x, y)` of the
normalised image point `(u, v)`.  Concrete camera models are not part of
`cost_functions.h`. -/
structure CameraModel (T : Type) where
  /-- Length of the intrinsics vector. -/
  kNumParams : Nat
  /-- Distort and transform to pixel space. -/
  WorldToImage : (Fin kNumParams → T) → T → T → T × T

/-- The camera model of the concrete scenario of section 8 of the
specification: no intrinsic parameters, and `WorldToImage` hands the normalised
coordinates back unchanged (identity in normalised coordinates, zero principal
point). -/
def IdentityCameraModel (T : Type) : CameraModel T where
  kNumParams := 0
  WorldToImage := fun _ u v => (u, v)

/-! ## `BundleAdjustmentCostFunction` -/

/-- Data members of `BundleAdjustmentCostFunction`: the observed pixel. -/
structure BundleAdjustmentCostFunction (T : Type) where
  /-- Observed `x`. -/
  x_ : T
  /-- Observed `y`. -/
  y_ : T

namespace BundleAdjustmentCostFunction

/-- Constructor `BundleAdjustmentCostFunction(point2D)`, as used by `Create`. -/
def Create {T : Type} (point2D : Fin 2 → T) : BundleAdjustmentCostFunction T :=
  { x_ := point2D 0, y_ := point2D 1 }

/-- The evaluation `operator()` of `BundleAdjustmentCostFunction<CameraModel>`. -/
def call {T : Type} [Field T] (C : CameraModel T) (self : BundleAdjustmentCostFunction T)
    (qvec : Fin 4 → T) (tvec : Fin 3 → T) (point3D : Fin 3 → T)
    (camera_params : Fin C.kNumParams → T) : Bool × (Fin 2 → T) :=
  -- Rotate and translate.
  let projection := ceres.UnitQuaternionRotatePoint qvec point3D
  let projection0 := projection 0 + tvec 0
  let projection1 := projection 1 + tvec 1
  let projection2 := projection 2 + tvec 2
  -- Project to image plane.
  let projection0 := projection0 / projection2
  let projection1 := projection1 / projection2
  -- Distort and transform to pixel space.
  let residuals := C.WorldToImage camera_params projection0 projection1
  -- Re-projection error.
  let residuals0 := residuals.1 - self.x_
  let residuals1 := residuals.2 - self.y_
  -- Covariance of pixels. Assumed to be independent. Divide by standard deviation.
  let sig : T := 5
  (true, ![residuals0 / sig, residuals1 / sig])

end BundleAdjustmentCostFunction

/-! ## `BundleAdjustmentConstantPoseCostFunction` -/

/-- Data members of `BundleAdjustmentConstantPoseCostFunction`: the fixed pose
and the observed pixel. -/
structure BundleAdjustmentConstantPoseCostFunction (T : Type) where
  /-- Fixed rotation, `w`. -/
  qw_ : T
  /-- Fixed rotation, `x`. -/
  qx_ : T
  /-- Fixed rotation, `y`. -/
  qy_ : T
  /-- Fixed rotation, `z`. -/
  qz_ : T
  /-- Fixed translation, `x`. -/
  tx_ : T
  /-- Fixed translation, `y`. -/
  ty_ : T
  /-- Fixed translation, `z`. -/
  tz_ : T
  /-- Observed `x`. -/
  x_ : T
  /-- Observed `y`. -/
  y_ : T

namespace BundleAdjustmentConstantPoseCostFunction

/-- Constructor `BundleAdjustmentConstantPoseCostFunction(qvec, tvec, point2D)`,
as used by `Create`. -/
def Create {T : Type} (qvec : Fin 4 → T) (tvec : Fin 3 → T) (point2D : Fin 2 → T) :
    BundleAdjustmentConstantPoseCostFunction T :=
  { qw_ := qvec 0, qx_ := qvec 1, qy_ := qvec 2, qz_ := qvec 3,
    tx_ := tvec 0, ty_ := tvec 1, tz_ := tvec 2,
    x_ := point2D 0, y_ := point2D 1 }

/-- The evaluation `operator()` of
`BundleAdjustmentConstantPoseCostFunction<CameraModel>`. -/
def call {T : Type} [Field T] (C : CameraModel T)
    (self : BundleAdjustmentConstantPoseCostFunction T)
    (point3D : Fin 3 → T) (camera_params : Fin C.kNumParams → T) : Bool × (Fin 2 → T) :=
  let qvec : Fin 4 → T := ![self.qw_, self.qx_, self.qy_, self.qz_]
  -- Rotate and translate.
  let projection := ceres.UnitQuaternionRotatePoint qvec point3D
  let projection0 := projection 0 + self.tx_
  let projection1 := projection 1 + self.ty_
  let projection2 := projection 2 + self.tz_
  -- Project to image plane.
  let projection0 := projection0 / projection2
  let projection1 := projection1 / projection2
  -- Distort and transform to pixel space.
  let residuals := C.WorldToImage camera_params projection0 projection1
  -- Re-projection error.
  let residuals0 := residuals.1 - self.x_
  let residuals1 := residuals.2 - self.y_
  (true, ![residuals0, residuals1])

end BundleAdjustmentConstantPoseCostFunction

/-! ## `RigBundleAdjustmentCostFunction` -/

/-- Data members of `RigBundleAdjustmentCostFunction`: the observed pixel. -/
structure RigBundleAdjustmentCostFunction (T : Type) where
  /-- Observed `x`. -/
  x_ : T
  /-- Observed `y`. -/
  y_ : T

namespace RigBundleAdjustmentCostFunction

/-- Constructor `RigBundleAdjustmentCostFunction(point2D)`, as used by `Create`. -/
def Create {T : Type} (point2D : Fin 2 → T) : RigBundleAdjustmentCostFunction T :=
  { x_ := point2D 0, y_ := point2D 1 }

/-- The evaluation `operator()` of `RigBundleAdjustmentCostFunction<CameraModel>`. -/
def call {T : Type} [Field T] (C : CameraModel T) (self : RigBundleAdjustmentCostFunction T)
    (rig_qvec : Fin 4 → T) (rig_tvec : Fin 3 → T)
    (rel_qvec : Fin 4 → T) (rel_tvec : Fin 3 → T)
    (point3D : Fin 3 → T) (camera_params : Fin C.kNumParams → T) : Bool × (Fin 2 → T) :=
  -- Concatenate rotations.
  let qvec := ceres.QuaternionProduct rel_qvec rig_qvec
  -- Concatenate translations.
  let tvec := ceres.UnitQuaternionRotatePoint rel_qvec rig_tvec
  let tvec0 := tvec 0 + rel_tvec 0
  let tvec1 := tvec 1 + rel_tvec 1
  let tvec2 := tvec 2 + rel_tvec 2
  -- Rotate and translate.
  let projection := ceres.UnitQuaternionRotatePoint qvec point3D
  let projection0 := projection 0 + tvec0
  let projection1 := projection 1 + tvec1
  let projection2 := projection 2 + tvec2
  -- Project to image plane.
  let projection0 := projection0 / projection2
  let projection1 := projection1 / projection2
  -- Distort and transform to pixel space.
  let residuals := C.WorldToImage camera_params projection0 projection1
  -- Re-projection error.
  let residuals0 := residuals.1 - self.x_
  let residuals1 := residuals.2 - self.y_
  (true, ![residuals0, residuals1])

end RigBundleAdjustmentCostFunction

/-! ## External numeric routines -/

/-- Routines that `CameraPoseCostFunction` takes from outside `src/`: `sqrt`
and `atan2` of the C++ maths library (the latter through
`ceres::QuaternionToAngleAxis`), and `inverse()` and `LLT::matrixU()` of Eigen on
6x6 matrices.  They are parameters of the embedding. -/
structure Numerics (T : Type) where
  /-- Square root. -/
  sqrt : T → T
  /-- Two-argument arctangent `atan2(y, x)`. -/
  atan2 : T → T → T
  /-- `Eigen::Matrix<double, 6, 6>::inverse()`. -/
  inverse : Matrix (Fin 6) (Fin 6) T → Matrix (Fin 6) (Fin 6) T
  /-- The upper factor `Eigen::LLT<...>(A).matrixU()`. -/
  lltMatrixU : Matrix (Fin 6) (Fin 6) T → Matrix (Fin 6) (Fin 6) T

/-- Modelled from the spec: `toAxisAngle(q)` of section 4.1, the conversion of a
quaternion to an axis-angle 3-vector.  The source calls
`ceres::QuaternionToAngleAxis(quaternion, angle_axis)` of `ceres/rotation.h`,
which is not part of `src/`; the two branches are that routine's. -/
def ceres.QuaternionToAngleAxis {T : Type} [LinearOrderedField T] (N : Numerics T)
    (quaternion : Fin 4 → T) : Fin 3 → T :=
  let q1 := quaternion 1
  let q2 := quaternion 2
  let q3 := quaternion 3
  let sin_squared_theta := q1 * q1 + q2 * q2 + q3 * q3
  if sin_squared_theta > 0 then
    let sin_theta := N.sqrt sin_squared_theta
    let cos_theta := quaternion 0
    let two_theta :=
      2 * (if cos_theta < 0 then N.atan2 (-sin_theta) (-cos_theta)
           else N.atan2 sin_theta cos_theta)
    let k := two_theta / sin_theta
    ![q1 * k, q2 * k, q3 * k]
  else
    let k : T := 2
    ![q1 * k, q2 * k, q3 * k]

/-! ## `CameraPoseCostFunction` -/

/-- Data members of `CameraPoseCostFunction`: the measured pose and the
covariance of the measurement. -/
structure CameraPoseCostFunction (T : Type) where
  /-- Measured rotation. -/
  q_ : Fin 4 → T
  /-- Measured translation. -/
  t_ : Fin 3 → T
  /-- Covariance of the measurement. -/
  cov_ : Matrix (Fin 6) (Fin 6) T

namespace CameraPoseCostFunction

/-- Constructor `CameraPoseCostFunction(qvec, tvec, cov)`, as used by `Create`. -/
def Create {T : Type} (qvec : Fin 4 → T) (tvec : Fin 3 → T)
    (cov : Matrix (Fin 6) (Fin 6) T) : CameraPoseCostFunction T :=
  { q_ := qvec, t_ := tvec, cov_ := cov }

/-- The evaluation `operator()` of `CameraPoseCostFunction`. -/
def call {T : Type} [LinearOrderedField T] (N : Numerics T)
    (self : CameraPoseCostFunction T) (qvec : Fin 4 → T) (tvec : Fin 3 → T) :
    Bool × (Fin 6 → T) :=
  -- Measurements
  let qvec_meas := self.q_
  let tvec_meas := self.t_
  -- Square root of information matrix
  let info := N.inverse self.cov_
  let Upper := N.lltMatrixU info
  let sqrt_info := Upper
  -- Estimates (`qvec_est` is built in the source and not read afterwards)
  let tvec_est : Fin 3 → T := ![tvec 0, tvec 1, tvec 2]
  -- Conjugate/invert estimated quaternion
  let qvec_est_inv : Fin 4 → T := ![qvec 0, -qvec 1, -qvec 2, -qvec 3]
  -- Calculate quaternion error
  let dq := ceres.QuaternionProduct qvec_est_inv qvec_meas
  -- Normalize quaternion error
  let norm := N.sqrt (dq 0 * dq 0 + dq 1 * dq 1 + dq 2 * dq 2 + dq 3 * dq 3)
  let dq : Fin 4 → T := ![dq 0 / norm, dq 1 / norm, dq 2 / norm, dq 3 / norm]
  -- Convert quaternion error to axis-angle representation
  let re := ceres.QuaternionToAngleAxis N dq
  -- tvec residual
  let rt : Fin 3 → T := fun i => tvec_est i - tvec_meas i
  -- Combined residual
  let r : Fin 6 → T := ![rt 0, rt 1, rt 2, re 0, re 1, re 2]
  -- Scale by square root info
  let rr := Matrix.mulVec sqrt_info r
  -- Output
  (true, ![rr 0, rr 1, rr 2, rr 3, rr 4, rr 5])

end CameraPoseCostFunction

/-! ## The pose measurement residual in the words of the specification -/

namespace RotationAlgebra

/-- Section 4.1, `compose(q1, q2)`: the quaternion product. -/
def compose {T : Type} [Field T] (q1 q2 : Fin 4 → T) : Fin 4 → T :=
  ceres.QuaternionProduct q1 q2

/-- Section 4.1, `invert(q)`: the conjugate. -/
def invert {T : Type} [Field T] (q : Fin 4 → T) : Fin 4 → T :=
  ![q 0, -q 1, -q 2, -q 3]

/-- Section 4.1, `normalize(q)`: division by the norm. -/
def normalize {T : Type} [Field T] (N : Numerics T) (q : Fin 4 → T) : Fin 4 → T :=
  fun i => q i / N.sqrt (q 0 * q 0 + q 1 * q 1 + q 2 * q 2 + q 3 * q 3)

/-- Section 4.1, `toAxisAngle(q)`. -/
def toAxisAngle {T : Type} [LinearOrderedField T] (N : Numerics T) (q : Fin 4 → T) :
    Fin 3 → T :=
  ceres.QuaternionToAngleAxis N q

end RotationAlgebra

/-- Section 4.2 in its own words: `W = chol(inverse of Sigma).upper`,
`dt = t_est - t_meas`, `dr` the axis-angle vector of the normalised composition
of the inverse of `q_est` with `q_meas`, and the residual `W * [dt; dr]`, the
translation part first. -/
def PoseMeasurementResidual {T : Type} [LinearOrderedField T] (N : Numerics T)
    (q_meas : Fin 4 → T) (t_meas : Fin 3 → T) (Sigma : Matrix (Fin 6) (Fin 6) T)
    (q_est : Fin 4 → T) (t_est : Fin 3 → T) : Fin 6 → T :=
  let W := N.lltMatrixU (N.inverse Sigma)
  let dt : Fin 3 → T := t_est - t_meas
  let dr : Fin 3 → T :=
    RotationAlgebra.toAxisAngle N
      (RotationAlgebra.normalize N
        (RotationAlgebra.compose (RotationAlgebra.invert q_est) q_meas))
  Matrix.mulVec W (Fin.append dt dr)

/-- The matrix `U` is the upper Cholesky factor of `A`: upper triangular with a
positive diagonal, and the product of its transpose with it is `A`. -/
def IsCholeskyUpper {T : Type} [LinearOrderedField T] {n : Nat}
    (A U : Matrix (Fin n) (Fin n) T) : Prop :=
  (∀ i j, j < i → U i j = 0) ∧ (∀ i, 0 < U i i) ∧ U.transpose * U = A

/-- The contract of the two Eigen routines at the covariance `cov`: when `cov`
is positive definite, `inverse()` returns its inverse, and `LLT::matrixU()` of
that inverse is its upper Cholesky factor. -/
def Numerics.WhiteningSound (N : Numerics ℝ) (cov : Matrix (Fin 6) (Fin 6) ℝ) : Prop :=
  cov.PosDef →
    N.inverse cov * cov = 1 ∧ IsCholeskyUpper (N.inverse cov) (N.lltMatrixU (N.inverse cov))

/-- The scalar routines over the reals: `sqrt` is the real square root and
`atan2(y, x)` is the argument of `x + i y`, in `(-pi, pi]`. -/
def Numerics.ScalarSound (N : Numerics ℝ) : Prop :=
  (∀ x, N.sqrt x = Real.sqrt x) ∧ (∀ y x, N.atan2 y x = Complex.arg ⟨x, y⟩)

/-! ## `RelativePoseCostFunction`

The claims about this functor turn on its two divisions, so here they are
checked: a quotient with divisor zero is `none`, which stands for the non-finite
value (NaN or an infinity) the floating-point division produces there. -/

/-- The division `a / b` with the zero divisor recorded: `none` when `b = 0`. -/
def checkedDiv {T : Type} [Field T] [DecidableEq T] (a b : T) : Option T :=
  if b = 0 then none else some (a / b)

/-- Modelled from the spec: the conversion of a quaternion "to rotation-matrix
form" of section 4.1, before normalisation.  The source reaches
`ceres::QuaternionToScaledRotation(q, R)` of `ceres/rotation.h` through
`ceres::QuaternionToRotation`; neither is part of `src/`.  The nine entries are
that routine's, row by row. -/
def ceres.QuaternionToScaledRotation {T : Type} [Field T] (q : Fin 4 → T) :
    Matrix (Fin 3) (Fin 3) T :=
  let a := q 0
  let b := q 1
  let c := q 2
  let d := q 3
  let aa := a * a
  let ab := a * b
  let ac := a * c
  let ad := a * d
  let bb := b * b
  let bc := b * c
  let bd := b * d
  let cc := c * c
  let cd := c * d
  let dd := d * d
  Matrix.of ![![aa + bb - cc - dd, 2 * (bc - ad), 2 * (ac + bd)],
    ![2 * (ad + bc), aa - bb + cc - dd, 2 * (cd - ab)],
    ![2 * (bd - ac), 2 * (ab + cd), aa - bb - cc + dd]]

/-- Modelled from the spec: the conversion of a quaternion "to rotation-matrix
form" of section 4.1.  The source calls `ceres::QuaternionToRotation(q, R)` of
`ceres/rotation.h`, which is not part of `src/`: the scaled rotation, every
entry multiplied by `1 / (q0^2 + q1^2 + q2^2 + q3^2)`.  The matrix is indexed
`(row, column)`, as the row-major `R` of the source is. -/
def ceres.QuaternionToRotation {T : Type} [Field T] [DecidableEq T] (q : Fin 4 → T) :
    Option (Matrix (Fin 3) (Fin 3) T) :=
  let R := ceres.QuaternionToScaledRotation q
  let normalizer := q 0 * q 0 + q 1 * q 1 + q 2 * q 2 + q 3 * q 3
  (checkedDiv 1 normalizer).bind fun normalizer =>
    some (Matrix.of fun i j => R i j * normalizer)

/-- Data members of `RelativePoseCostFunction`: the two observations. -/
structure RelativePoseCostFunction (T : Type) where
  /-- First observation, `x`. -/
  x1_ : T
  /-- First observation, `y`. -/
  y1_ : T
  /-- Second observation, `x`. -/
  x2_ : T
  /-- Second observation, `y`. -/
  y2_ : T

namespace RelativePoseCostFunction

/-- Constructor `RelativePoseCostFunction(x1, x2)`, as used by `Create`. -/
def Create {T : Type} (x1 x2 : Fin 2 → T) : RelativePoseCostFunction T :=
  { x1_ := x1 0, y1_ := x1 1, x2_ := x2 0, y2_ := x2 1 }

/-- The evaluation `operator()` of `RelativePoseCostFunction`.  The second
component is `residuals[0]`. -/
def call {T : Type} [Field T] [DecidableEq T] (self : RelativePoseCostFunction T)
    (qvec : Fin 4 → T) (tvec : Fin 3 → T) : Bool × Option T :=
  (true,
    (ceres.QuaternionToRotation qvec).bind fun R =>
      -- Matrix representation of the cross product t x R.
      let t_x : Matrix (Fin 3) (Fin 3) T :=
        Matrix.of ![![0, -tvec 2, tvec 1], ![tvec 2, 0, -tvec 0], ![-tvec 1, tvec 0, 0]]
      -- Essential matrix.
      let E := t_x * R
      -- Homogeneous image coordinates.
      let x1_h : Fin 3 → T := ![self.x1_, self.y1_, 1]
      let x2_h : Fin 3 → T := ![self.x2_, self.y2_, 1]
      -- Squared sampson error.
      let Ex1 := Matrix.mulVec E x1_h
      let Etx2 := Matrix.mulVec E.transpose x2_h
      let x2tEx1 := Matrix.dotProduct x2_h Ex1
      checkedDiv (x2tEx1 * x2tEx1)
        (Ex1 0 * Ex1 0 + Ex1 1 * Ex1 1 + Etx2 0 * Etx2 0 + Etx2 1 * Etx2 1))

end RelativePoseCostFunction

/-! ## The epipolar residual in the words of the specification -/

namespace EpipolarResidual

/-- Section 4.6, the skew-symmetric cross-product matrix of `t`. -/
def skew {T : Type} [Field T] (t : Fin 3 → T) : Matrix (Fin 3) (Fin 3) T :=
  Matrix.of ![![0, -t 2, t 1], ![t 2, 0, -t 0], ![-t 1, t 0, 0]]

/-- Section 4.6, the essential matrix: the cross-product matrix of `t` times
`R`. -/
def essential {T : Type} [Field T] (R : Matrix (Fin 3) (Fin 3) T) (t : Fin 3 → T) :
    Matrix (Fin 3) (Fin 3) T :=
  skew t * R

/-- Section 4.6, homogeneous coordinates: third component 1. -/
def homogeneous {T : Type} [Field T] (x : Fin 2 → T) : Fin 3 → T :=
  ![x 0, x 1, 1]

/-- Section 4.6, the scalar algebraic epipolar error `s`: `x2_h` against
`E * x1_h`. -/
def algebraicError {T : Type} [Field T] (E : Matrix (Fin 3) (Fin 3) T)
    (x1 x2 : Fin 2 → T) : T :=
  Matrix.dotProduct (homogeneous x2) (Matrix.mulVec E (homogeneous x1))

/-- Section 4.6, the denominator of the residual: the squares of the first two
components of `E * x1_h` and of the transpose of `E` times `x2_h`. -/
def sampsonDenominator {T : Type} [Field T] (E : Matrix (Fin 3) (Fin 3) T)
    (x1 x2 : Fin 2 → T) : T :=
  (Matrix.mulVec E (homogeneous x1)) 0 ^ 2 + (Matrix.mulVec E (homogeneous x1)) 1 ^ 2
    + (Matrix.mulVec E.transpose (homogeneous x2)) 0 ^ 2
    + (Matrix.mulVec E.transpose (homogeneous x2)) 1 ^ 2

end EpipolarResidual

/-! ## Rotation helper facts -/

theorem ceres.QuaternionProduct_identity_left {T : Type} [Field T] (w : Fin 4 → T) :
    ceres.QuaternionProduct ![1, 0, 0, 0] w = w := by
  ext i
  fin_cases i <;> simp [ceres.QuaternionProduct]

theorem ceres.QuaternionProduct_identity_right {T : Type} [Field T] (z : Fin 4 → T) :
    ceres.QuaternionProduct z ![1, 0, 0, 0] = z := by
  ext i
  fin_cases i <;> simp [ceres.QuaternionProduct]

theorem ceres.UnitQuaternionRotatePoint_identity {T : Type} [Field T] (pt : Fin 3 → T) :
    ceres.UnitQuaternionRotatePoint ![1, 0, 0, 0] pt = pt := by
  ext i
  fin_cases i <;> simp [ceres.UnitQuaternionRotatePoint]

theorem ceres.UnitQuaternionRotatePoint_zero {T : Type} [Field T] (q : Fin 4 → T) :
    ceres.UnitQuaternionRotatePoint q ![0, 0, 0] = ![0, 0, 0] := by
  ext i
  fin_cases i <;> simp [ceres.UnitQuaternionRotatePoint]

theorem IdentityCameraModel_WorldToImage {T : Type}
    (params : Fin (IdentityCameraModel T).kNumParams → T) (u v : T) :
    (IdentityCameraModel T).WorldToImage params u v = (u, v) := rfl

/-! ## Projection residuals -/

/-- C1 (as the code has it): with relative rotation `(1,0,0,0)` and relative
translation `(0,0,0)` the rig residual is exactly 5 times the residual of
`BundleAdjustmentCostFunction` at pose `(rig_q, rig_t)`, the same point,
intrinsics and observation: the rig functor does not divide by the standard
deviation. -/
theorem rig_identity_relative_eq_five_times_bundle_adjustment
    {T : Type} [LinearOrderedField T] (C : CameraModel T) (point2D : Fin 2 → T)
    (rig_q : Fin 4 → T) (rig_t : Fin 3 → T) (p : Fin 3 → T)
    (params : Fin C.kNumParams → T) :
    ((RigBundleAdjustmentCostFunction.Create point2D).call C rig_q rig_t
        ![1, 0, 0, 0] ![0, 0, 0] p params).2
      = fun i => 5 * ((BundleAdjustmentCostFunction.Create point2D).call C
          rig_q rig_t p params).2 i := by
  ext i
  fin_cases i <;>
    simp [RigBundleAdjustmentCostFunction.call, RigBundleAdjustmentCostFunction.Create,
      BundleAdjustmentCostFunction.call, BundleAdjustmentCostFunction.Create,
      ceres.QuaternionProduct_identity_left, ceres.UnitQuaternionRotatePoint_identity] <;>
    ring

/-- C1 (as stated) fails: identity camera model, `rig_q = (1,0,0,0)`,
`rig_t = (0,0,0)`, identity relative pose, point `(1,0,1)`, observation `(0,0)`:
the rig residual is `(1, 0)`, the one of `BundleAdjustmentCostFunction` is
`(1/5, 0)`. -/
theorem rig_identity_relative_ne_bundle_adjustment :
    ((RigBundleAdjustmentCostFunction.Create ![0, 0]).call (IdentityCameraModel ℚ)
        ![1, 0, 0, 0] ![0, 0, 0] ![1, 0, 0, 0] ![0, 0, 0] ![1, 0, 1] ![]).2 = ![1, 0]
    ∧ ((BundleAdjustmentCostFunction.Create ![0, 0]).call (IdentityCameraModel ℚ)
        ![1, 0, 0, 0] ![0, 0, 0] ![1, 0, 1] ![]).2 = ![1 / 5, 0]
    ∧ ((RigBundleAdjustmentCostFunction.Create ![0, 0]).call (IdentityCameraModel ℚ)
        ![1, 0, 0, 0] ![0, 0, 0] ![1, 0, 0, 0] ![0, 0, 0] ![1, 0, 1] ![]).2
      ≠ ((BundleAdjustmentCostFunction.Create ![0, 0]).call (IdentityCameraModel ℚ)
        ![1, 0, 0, 0] ![0, 0, 0] ![1, 0, 1] ![]).2 := by
  have h1 : ((RigBundleAdjustmentCostFunction.Create ![0, 0]).call (IdentityCameraModel ℚ)
      ![1, 0, 0, 0] ![0, 0, 0] ![1, 0, 0, 0] ![0, 0, 0] ![1, 0, 1] ![]).2 = ![1, 0] := by
    simp [RigBundleAdjustmentCostFunction.call, RigBundleAdjustmentCostFunction.Create,
      IdentityCameraModel, ceres.UnitQuaternionRotatePoint, ceres.QuaternionProduct]
  have h2 : ((BundleAdjustmentCostFunction.Create ![0, 0]).call (IdentityCameraModel ℚ)
      ![1, 0, 0, 0] ![0, 0, 0] ![1, 0, 1] ![]).2 = ![1 / 5, 0] := by
    simp [BundleAdjustmentCostFunction.call, BundleAdjustmentCostFunction.Create,
      IdentityCameraModel, ceres.UnitQuaternionRotatePoint]
  refine ⟨h1, h2, ?_⟩
  rw [h1, h2]
  intro h
  have h0 := congrFun h 0
  norm_num at h0

/-- C2: `BundleAdjustmentConstantPoseCostFunction` built from `(q, t, (x, y))`
returns the raw pixel difference `WorldToImage(intrinsics, X/Z, Y/Z) - (x, y)`
with `(X, Y, Z) = rotate(q, p) + t`, and that is exactly 5 times the residual of
`BundleAdjustmentCostFunction` for the same `q`, `t`, `p`, intrinsics and
observation. -/
theorem constant_pose_eq_raw_difference_eq_five_times_bundle_adjustment
    {T : Type} [LinearOrderedField T] (C : CameraModel T)
    (q : Fin 4 → T) (t : Fin 3 → T) (x y : T) (p : Fin 3 → T)
    (params : Fin C.kNumParams → T) :
    let P := ceres.UnitQuaternionRotatePoint q p
    let X := P 0 + t 0
    let Y := P 1 + t 1
    let Z := P 2 + t 2
    let uv := C.WorldToImage params (X / Z) (Y / Z)
    ((BundleAdjustmentConstantPoseCostFunction.Create q t ![x, y]).call C p params).2
        = ![uv.1 - x, uv.2 - y]
    ∧ ((BundleAdjustmentConstantPoseCostFunction.Create q t ![x, y]).call C p params).2
        = fun i => 5 * ((BundleAdjustmentCostFunction.Create ![x, y]).call C
            q t p params).2 i := by
  have hq : ![q 0, q 1, q 2, q 3] = q := by
    ext i
    fin_cases i <;> rfl
  refine ⟨?_, ?_⟩
  · simp [BundleAdjustmentConstantPoseCostFunction.call,
      BundleAdjustmentConstantPoseCostFunction.Create, hq]
  · ext i
    fin_cases i <;>
      simp [BundleAdjustmentConstantPoseCostFunction.call,
        BundleAdjustmentConstantPoseCostFunction.Create,
        BundleAdjustmentCostFunction.call, BundleAdjustmentCostFunction.Create, hq] <;>
      ring

/-- C3: there is one fixed standard deviation `sigma = 5`, the same for all
parameter estimates, such that `BundleAdjustmentCostFunction` succeeds with the
residual `((u - x)/sigma, (v - y)/sigma)`, where
`(X, Y, Z) = UnitQuaternionRotatePoint(q, p) + t` and
`(u, v) = WorldToImage(intrinsics, X/Z, Y/Z)`. -/
theorem bundle_adjustment_residual_formula
    {T : Type} [LinearOrderedField T] (C : CameraModel T) :
    ∃ sigma : T, sigma = 5 ∧
      ∀ (q : Fin 4 → T) (t : Fin 3 → T) (p : Fin 3 → T)
        (params : Fin C.kNumParams → T) (x y : T),
        let P := ceres.UnitQuaternionRotatePoint q p
        let X := P 0 + t 0
        let Y := P 1 + t 1
        let Z := P 2 + t 2
        let uv := C.WorldToImage params (X / Z) (Y / Z)
        (BundleAdjustmentCostFunction.Create ![x, y]).call C q t p params
          = (true, ![(uv.1 - x) / sigma, (uv.2 - y) / sigma]) := by
  refine ⟨5, rfl, ?_⟩
  intro q t p params x y
  simp [BundleAdjustmentCostFunction.call, BundleAdjustmentCostFunction.Create]

/-- C4: when projecting `p` through the pose `(q, t)` and the camera model gives
exactly the observation `(x, y)`, `BundleAdjustmentCostFunction` returns the
zero vector. -/
theorem bundle_adjustment_zero_of_exact_projection
    {T : Type} [LinearOrderedField T] (C : CameraModel T)
    (q : Fin 4 → T) (t : Fin 3 → T) (p : Fin 3 → T)
    (params : Fin C.kNumParams → T) (x y : T)
    (h : C.WorldToImage params
          (((ceres.UnitQuaternionRotatePoint q p) 0 + t 0)
            / ((ceres.UnitQuaternionRotatePoint q p) 2 + t 2))
          (((ceres.UnitQuaternionRotatePoint q p) 1 + t 1)
            / ((ceres.UnitQuaternionRotatePoint q p) 2 + t 2)) = (x, y)) :
    ((BundleAdjustmentCostFunction.Create ![x, y]).call C q t p params).2 = ![0, 0] := by
  simp [BundleAdjustmentCostFunction.call, BundleAdjustmentCostFunction.Create, h]

/-- C4, the scenario of the specification: `q = (1,0,0,0)`, `t = (0,0,5)`,
`p = (0,0,5)`, identity camera model, observation `(0,0)`.  The camera-frame
point is `(0,0,10)`, the projection reproduces the observation, and the residual
is `(0,0)`. -/
theorem bundle_adjustment_zero_of_exact_projection_witness :
    (fun i => (ceres.UnitQuaternionRotatePoint (![1, 0, 0, 0] : Fin 4 → ℚ) ![0, 0, 5]) i
        + (![0, 0, 5] : Fin 3 → ℚ) i) = ![0, 0, 10]
    ∧ (IdentityCameraModel ℚ).WorldToImage ![]
          (((ceres.UnitQuaternionRotatePoint ![1, 0, 0, 0] ![0, 0, 5]) 0 + ![0, 0, 5] 0)
            / ((ceres.UnitQuaternionRotatePoint ![1, 0, 0, 0] ![0, 0, 5]) 2 + ![0, 0, 5] 2))
          (((ceres.UnitQuaternionRotatePoint ![1, 0, 0, 0] ![0, 0, 5]) 1 + ![0, 0, 5] 1)
            / ((ceres.UnitQuaternionRotatePoint ![1, 0, 0, 0] ![0, 0, 5]) 2 + ![0, 0, 5] 2))
        = (0, 0)
    ∧ ((BundleAdjustmentCostFunction.Create ![0, 0]).call (IdentityCameraModel ℚ)
        ![1, 0, 0, 0] ![0, 0, 5] ![0, 0, 5] ![]).2 = ![0, 0] := by
  have h : (IdentityCameraModel ℚ).WorldToImage ![]
          (((ceres.UnitQuaternionRotatePoint ![1, 0, 0, 0] ![0, 0, 5]) 0 + ![0, 0, 5] 0)
            / ((ceres.UnitQuaternionRotatePoint ![1, 0, 0, 0] ![0, 0, 5]) 2 + ![0, 0, 5] 2))
          (((ceres.UnitQuaternionRotatePoint ![1, 0, 0, 0] ![0, 0, 5]) 1 + ![0, 0, 5] 1)
            / ((ceres.UnitQuaternionRotatePoint ![1, 0, 0, 0] ![0, 0, 5]) 2 + ![0, 0, 5] 2))
        = (0, 0) := by
    simp [IdentityCameraModel, ceres.UnitQuaternionRotatePoint]
  refine ⟨?_, h, bundle_adjustment_zero_of_exact_projection (IdentityCameraModel ℚ)
    ![1, 0, 0, 0] ![0, 0, 5] ![0, 0, 5] ![] 0 0 h⟩
  ext i
  fin_cases i <;> norm_num [ceres.UnitQuaternionRotatePoint]

/-- C5: the rig residual is `WorldToImage(intrinsics, X/Z, Y/Z) - (x, y)` with
`(X, Y, Z) = rotate(q_world, p) + t_world`,
`q_world = QuaternionProduct(rel_q, rig_q)` and
`t_world = rotate(rel_q, rig_t) + rel_t`; it is the result of
`BundleAdjustmentConstantPoseCostFunction` built from `(q_world, t_world)` and
the same observation. -/
theorem rig_eq_constant_pose_at_composed_pose
    {T : Type} [LinearOrderedField T] (C : CameraModel T)
    (rig_q : Fin 4 → T) (rig_t : Fin 3 → T) (rel_q : Fin 4 → T) (rel_t : Fin 3 → T)
    (p : Fin 3 → T) (params : Fin C.kNumParams → T) (x y : T) :
    let q_world := ceres.QuaternionProduct rel_q rig_q
    let t_world : Fin 3 → T :=
      fun i => (ceres.UnitQuaternionRotatePoint rel_q rig_t) i + rel_t i
    let P := ceres.UnitQuaternionRotatePoint q_world p
    let X := P 0 + t_world 0
    let Y := P 1 + t_world 1
    let Z := P 2 + t_world 2
    let uv := C.WorldToImage params (X / Z) (Y / Z)
    ((RigBundleAdjustmentCostFunction.Create ![x, y]).call C rig_q rig_t rel_q rel_t
        p params).2 = ![uv.1 - x, uv.2 - y]
    ∧ (RigBundleAdjustmentCostFunction.Create ![x, y]).call C rig_q rig_t rel_q rel_t
        p params
      = (BundleAdjustmentConstantPoseCostFunction.Create q_world t_world ![x, y]).call C
          p params := by
  have hq : ∀ v : Fin 4 → T, ![v 0, v 1, v 2, v 3] = v := by
    intro v
    ext i
    fin_cases i <;> rfl
  refine ⟨?_, ?_⟩
  · simp [RigBundleAdjustmentCostFunction.call, RigBundleAdjustmentCostFunction.Create]
  · simp only [RigBundleAdjustmentCostFunction.call, RigBundleAdjustmentCostFunction.Create,
      BundleAdjustmentConstantPoseCostFunction.call,
      BundleAdjustmentConstantPoseCostFunction.Create, hq]

/-- C6 (as the code has it): when the relative pose is the identity and the rig
pose is `(q, t)`, and also when the rig pose is the identity and the relative
pose is `(q, t)`, the rig functor returns what
`BundleAdjustmentConstantPoseCostFunction` built from `(q, t)` returns, and its
residual is 5 times the residual of `BundleAdjustmentCostFunction` at pose
`(q, t)`. -/
theorem rig_identity_specializes
    {T : Type} [LinearOrderedField T] (C : CameraModel T)
    (q : Fin 4 → T) (t : Fin 3 → T) (p : Fin 3 → T)
    (params : Fin C.kNumParams → T) (point2D : Fin 2 → T) :
    ((RigBundleAdjustmentCostFunction.Create point2D).call C q t ![1, 0, 0, 0] ![0, 0, 0]
        p params
      = (BundleAdjustmentConstantPoseCostFunction.Create q t point2D).call C p params
    ∧ (RigBundleAdjustmentCostFunction.Create point2D).call C ![1, 0, 0, 0] ![0, 0, 0] q t
        p params
      = (BundleAdjustmentConstantPoseCostFunction.Create q t point2D).call C p params)
    ∧ (((RigBundleAdjustmentCostFunction.Create point2D).call C q t ![1, 0, 0, 0] ![0, 0, 0]
        p params).2
      = (fun i => 5 * ((BundleAdjustmentCostFunction.Create point2D).call C q t p params).2 i)
    ∧ ((RigBundleAdjustmentCostFunction.Create point2D).call C ![1, 0, 0, 0] ![0, 0, 0] q t
        p params).2
      = (fun i =>
          5 * ((BundleAdjustmentCostFunction.Create point2D).call C q t p params).2 i)) := by
  have hq : ![q 0, q 1, q 2, q 3] = q := by
    ext i
    fin_cases i <;> rfl
  have ha : (RigBundleAdjustmentCostFunction.Create point2D).call C q t ![1, 0, 0, 0]
      ![0, 0, 0] p params
      = (BundleAdjustmentConstantPoseCostFunction.Create q t point2D).call C p params := by
    simp [RigBundleAdjustmentCostFunction.call, RigBundleAdjustmentCostFunction.Create,
      BundleAdjustmentConstantPoseCostFunction.call,
      BundleAdjustmentConstantPoseCostFunction.Create, hq,
      ceres.QuaternionProduct_identity_left, ceres.UnitQuaternionRotatePoint_identity]
  have hb : (RigBundleAdjustmentCostFunction.Create point2D).call C ![1, 0, 0, 0]
      ![0, 0, 0] q t p params
      = (BundleAdjustmentConstantPoseCostFunction.Create q t point2D).call C p params := by
    simp [RigBundleAdjustmentCostFunction.call, RigBundleAdjustmentCostFunction.Create,
      BundleAdjustmentConstantPoseCostFunction.call,
      BundleAdjustmentConstantPoseCostFunction.Create, hq,
      ceres.QuaternionProduct_identity_right, ceres.UnitQuaternionRotatePoint_zero]
  have h5 : ((BundleAdjustmentConstantPoseCostFunction.Create q t point2D).call C p params).2
      = fun i =>
          5 * ((BundleAdjustmentCostFunction.Create point2D).call C q t p params).2 i := by
    ext i
    fin_cases i <;>
      simp [BundleAdjustmentConstantPoseCostFunction.call,
        BundleAdjustmentConstantPoseCostFunction.Create,
        BundleAdjustmentCostFunction.call, BundleAdjustmentCostFunction.Create, hq] <;>
      ring
  exact ⟨⟨ha, hb⟩, by rw [ha]; exact h5, by rw [hb]; exact h5⟩

/-- C6 (as stated) fails for `BundleAdjustmentCostFunction`: identity camera
model, identity rig pose, relative pose `q = (1,0,0,0)`, `t = (0,0,1)`, point
`(1,0,1)`, observation `(0,0)`: the rig residual is `(1/2, 0)`, the residual of
`BundleAdjustmentCostFunction` at pose `(q, t)` is `(1/10, 0)`. -/
theorem rig_identity_rig_pose_ne_bundle_adjustment :
    ((RigBundleAdjustmentCostFunction.Create ![0, 0]).call (IdentityCameraModel ℚ)
        ![1, 0, 0, 0] ![0, 0, 0] ![1, 0, 0, 0] ![0, 0, 1] ![1, 0, 1] ![]).2 = ![1 / 2, 0]
    ∧ ((BundleAdjustmentCostFunction.Create ![0, 0]).call (IdentityCameraModel ℚ)
        ![1, 0, 0, 0] ![0, 0, 1] ![1, 0, 1] ![]).2 = ![1 / 10, 0]
    ∧ ((RigBundleAdjustmentCostFunction.Create ![0, 0]).call (IdentityCameraModel ℚ)
        ![1, 0, 0, 0] ![0, 0, 0] ![1, 0, 0, 0] ![0, 0, 1] ![1, 0, 1] ![]).2
      ≠ ((BundleAdjustmentCostFunction.Create ![0, 0]).call (IdentityCameraModel ℚ)
        ![1, 0, 0, 0] ![0, 0, 1] ![1, 0, 1] ![]).2 := by
  have h1 : ((RigBundleAdjustmentCostFunction.Create ![0, 0]).call (IdentityCameraModel ℚ)
      ![1, 0, 0, 0] ![0, 0, 0] ![1, 0, 0, 0] ![0, 0, 1] ![1, 0, 1] ![]).2 = ![1 / 2, 0] := by
    ext i
    fin_cases i <;>
      norm_num [RigBundleAdjustmentCostFunction.call, RigBundleAdjustmentCostFunction.Create,
        IdentityCameraModel_WorldToImage, ceres.UnitQuaternionRotatePoint,
        ceres.QuaternionProduct]
  have h2 : ((BundleAdjustmentCostFunction.Create ![0, 0]).call (IdentityCameraModel ℚ)
      ![1, 0, 0, 0] ![0, 0, 1] ![1, 0, 1] ![]).2 = ![1 / 10, 0] := by
    ext i
    fin_cases i <;>
      norm_num [BundleAdjustmentCostFunction.call, BundleAdjustmentCostFunction.Create,
        IdentityCameraModel_WorldToImage, ceres.UnitQuaternionRotatePoint]
  refine ⟨h1, h2, ?_⟩
  rw [h1, h2]
  intro h
  have h0 := congrFun h 0
  norm_num at h0

/-! ## Pose measurement residual: helper facts -/

theorem vec6_eta {T : Type} (v : Fin 6 → T) : ![v 0, v 1, v 2, v 3, v 4, v 5] = v := by
  ext i
  fin_cases i <;> rfl

theorem vec6_eq_append {T : Type} (a b : Fin 3 → T) :
    (![a 0, a 1, a 2, b 0, b 1, b 2] : Fin 6 → T) = Fin.append a b := by
  ext i
  fin_cases i <;> rfl

/-- The residual of `CameraPoseCostFunction` in closed form. -/
theorem CameraPoseCostFunction.call_eq {T : Type} [LinearOrderedField T] (N : Numerics T)
    (q_meas : Fin 4 → T) (t_meas : Fin 3 → T) (cov : Matrix (Fin 6) (Fin 6) T)
    (q_est : Fin 4 → T) (t_est : Fin 3 → T) :
    (CameraPoseCostFunction.Create q_meas t_meas cov).call N q_est t_est
      = (true, Matrix.mulVec (N.lltMatrixU (N.inverse cov))
          (Fin.append (t_est - t_meas)
            (ceres.QuaternionToAngleAxis N
              (RotationAlgebra.normalize N
                (ceres.QuaternionProduct (RotationAlgebra.invert q_est) q_meas))))) := by
  have hn : ∀ v : Fin 4 → T,
      (![v 0 / N.sqrt (v 0 * v 0 + v 1 * v 1 + v 2 * v 2 + v 3 * v 3),
         v 1 / N.sqrt (v 0 * v 0 + v 1 * v 1 + v 2 * v 2 + v 3 * v 3),
         v 2 / N.sqrt (v 0 * v 0 + v 1 * v 1 + v 2 * v 2 + v 3 * v 3),
         v 3 / N.sqrt (v 0 * v 0 + v 1 * v 1 + v 2 * v 2 + v 3 * v 3)] : Fin 4 → T)
        = RotationAlgebra.normalize N v := by
    intro v
    ext i
    fin_cases i <;> rfl
  simp only [CameraPoseCostFunction.call, CameraPoseCostFunction.Create, vec6_eta, hn,
    RotationAlgebra.invert]
  congr 2

/-- A quaternion without vector part has the zero axis-angle vector. -/
theorem ceres.QuaternionToAngleAxis_of_vector_part_zero {T : Type} [LinearOrderedField T]
    (N : Numerics T) (q : Fin 4 → T) (h1 : q 1 = 0) (h2 : q 2 = 0) (h3 : q 3 = 0) :
    ceres.QuaternionToAngleAxis N q = 0 := by
  ext i
  fin_cases i <;> simp [ceres.QuaternionToAngleAxis, h1, h2, h3]

/-- The rotation error of an estimate against itself, or against its negation,
has no vector part. -/
theorem rotation_error_vector_part_self {T : Type} [LinearOrderedField T] (N : Numerics T)
    (q : Fin 4 → T) :
    ceres.QuaternionToAngleAxis N
        (RotationAlgebra.normalize N (ceres.QuaternionProduct (RotationAlgebra.invert q) q)) = 0
    ∧ ceres.QuaternionToAngleAxis N
        (RotationAlgebra.normalize N
          (ceres.QuaternionProduct (RotationAlgebra.invert (-q)) q)) = 0 := by
  constructor
  · apply ceres.QuaternionToAngleAxis_of_vector_part_zero <;>
      simp [RotationAlgebra.normalize, RotationAlgebra.invert, ceres.QuaternionProduct] <;>
      left <;> ring
  · apply ceres.QuaternionToAngleAxis_of_vector_part_zero <;>
      simp [RotationAlgebra.normalize, RotationAlgebra.invert, ceres.QuaternionProduct] <;>
      left <;> ring

/-- Over the reals the axis-angle vector vanishes only for a quaternion without
vector part: in the branch of a non-zero vector part the angle `atan2` returns
is not zero. -/
theorem ceres.QuaternionToAngleAxis_eq_zero_iff (N : Numerics ℝ) (hN : N.ScalarSound)
    (q : Fin 4 → ℝ) :
    ceres.QuaternionToAngleAxis N q = 0 ↔ q 1 = 0 ∧ q 2 = 0 ∧ q 3 = 0 := by
  constructor
  · intro h
    by_cases hs : q 1 * q 1 + q 2 * q 2 + q 3 * q 3 > 0
    · exfalso
      have hsin : 0 < Real.sqrt (q 1 * q 1 + q 2 * q 2 + q 3 * q 3) := Real.sqrt_pos.mpr hs
      have hk : (2 * (if q 0 < 0
            then N.atan2 (-N.sqrt (q 1 * q 1 + q 2 * q 2 + q 3 * q 3)) (-q 0)
            else N.atan2 (N.sqrt (q 1 * q 1 + q 2 * q 2 + q 3 * q 3)) (q 0)))
          / N.sqrt (q 1 * q 1 + q 2 * q 2 + q 3 * q 3) ≠ 0 := by
        rw [hN.1]
        apply div_ne_zero _ hsin.ne'
        apply mul_ne_zero two_ne_zero
        split_ifs
        · rw [hN.2]
          intro h0
          have := (Complex.arg_eq_zero_iff.mp h0).2
          simp at this
          exact hsin.ne' this
        · rw [hN.2]
          intro h0
          have := (Complex.arg_eq_zero_iff.mp h0).2
          simp at this
          exact hsin.ne' this
      have h1 := congrFun h 0
      have h2 := congrFun h 1
      have h3 := congrFun h 2
      simp only [ceres.QuaternionToAngleAxis, if_pos hs, Matrix.cons_val_zero,
        Matrix.cons_val_one, Matrix.head_cons, Matrix.cons_val_two, Matrix.tail_cons,
        Pi.zero_apply] at h1 h2 h3
      have e1 : q 1 = 0 := (mul_eq_zero.mp h1).resolve_right hk
      have e2 : q 2 = 0 := (mul_eq_zero.mp h2).resolve_right hk
      have e3 : q 3 = 0 := (mul_eq_zero.mp h3).resolve_right hk
      rw [e1, e2, e3] at hs
      simp at hs
    · have n1 := mul_self_nonneg (q 1)
      have n2 := mul_self_nonneg (q 2)
      have n3 := mul_self_nonneg (q 3)
      have h1 : q 1 = 0 := mul_self_eq_zero.mp (by linarith)
      have h2 : q 2 = 0 := mul_self_eq_zero.mp (by linarith)
      have h3 : q 3 = 0 := mul_self_eq_zero.mp (by linarith)
      exact ⟨h1, h2, h3⟩
  · rintro ⟨h1, h2, h3⟩
    exact ceres.QuaternionToAngleAxis_of_vector_part_zero N q h1 h2 h3

/-- The upper Cholesky factor of a matrix is unique. -/
theorem IsCholeskyUpper.unique {T : Type} [LinearOrderedField T] {n : Nat}
    {A U V : Matrix (Fin n) (Fin n) T} (hU : IsCholeskyUpper A U)
    (hV : IsCholeskyUpper A V) : U = V := by
  obtain ⟨hUt, hUp, hUA⟩ := hU
  obtain ⟨hVt, hVp, hVA⟩ := hV
  have main : ∀ k : ℕ, ∀ i : Fin n, i.val = k → ∀ j, U i j = V i j := by
    intro k
    induction k using Nat.strong_induction_on with
    | _ k ih =>
      intro i hi j
      have ih2 : ∀ i2 : Fin n, i2 < i → ∀ j, U i2 j = V i2 j := by
        intro i2 h2 j
        exact ih i2.val (by rw [← hi]; exact h2) i2 rfl j
      -- the entry `(i, j)` of the two products
      have step : ∀ j : Fin n, U i i * U i j = V i i * V i j := by
        intro j
        have e : (U.transpose * U) i j = (V.transpose * V) i j := by rw [hUA, hVA]
        simp only [Matrix.mul_apply, Matrix.transpose_apply] at e
        rw [← Finset.add_sum_erase Finset.univ (fun k => U k i * U k j) (Finset.mem_univ i),
          ← Finset.add_sum_erase Finset.univ (fun k => V k i * V k j) (Finset.mem_univ i)] at e
        have rest : ∑ k ∈ Finset.univ.erase i, U k i * U k j
            = ∑ k ∈ Finset.univ.erase i, V k i * V k j := by
          apply Finset.sum_congr rfl
          intro k hk
          have hne : k ≠ i := Finset.ne_of_mem_erase hk
          rcases lt_or_gt_of_ne hne with hlt | hgt
          · rw [ih2 k hlt i, ih2 k hlt j]
          · rw [hUt k i hgt, hVt k i hgt]
            simp
        rw [rest] at e
        exact add_right_cancel e
      have hdiag : U i i = V i i :=
        (mul_self_inj (hUp i).le (hVp i).le).mp (step i)
      by_cases hji : j < i
      · rw [hUt i j hji, hVt i j hji]
      · have := step j
        rw [hdiag] at this
        exact mul_left_cancel₀ (hVp i).ne' this
  ext i j
  exact main i.val i rfl j

/-- A positive multiple of a positive-definite matrix is positive definite. -/
theorem posDef_smul {n : Nat} {S : Matrix (Fin n) (Fin n) ℝ} (hS : S.PosDef) {k : ℝ}
    (hk : 0 < k) : (k • S).PosDef := by
  refine ⟨?_, ?_⟩
  · have h := hS.1
    unfold Matrix.IsHermitian at h ⊢
    rw [Matrix.conjTranspose_smul, h]
    simp
  · intro x hx
    have h := hS.2 x hx
    rw [Matrix.smul_mulVec_assoc, Matrix.dotProduct_smul]
    exact mul_pos hk h

/-- Scaling a matrix by `1/k`, `k > 0`, scales its upper Cholesky factor by
`1/sqrt k`. -/
theorem IsCholeskyUpper.smul {n : Nat} {A U : Matrix (Fin n) (Fin n) ℝ}
    (hU : IsCholeskyUpper A U) {k : ℝ} (hk : 0 < k) :
    IsCholeskyUpper (k⁻¹ • A) ((1 / Real.sqrt k) • U) := by
  obtain ⟨ht, hp, hA⟩ := hU
  have hs : 0 < Real.sqrt k := Real.sqrt_pos.mpr hk
  refine ⟨?_, ?_, ?_⟩
  · intro i j hij
    simp [ht i j hij]
  · intro i
    simp only [Matrix.smul_apply, smul_eq_mul]
    exact mul_pos (one_div_pos.mpr hs) (hp i)
  · rw [Matrix.transpose_smul, Matrix.smul_mul, Matrix.mul_smul, hA, smul_smul]
    congr 1
    rw [one_div, ← mul_inv, Real.mul_self_sqrt hk.le]

/-- Under the contract of the Eigen routines the whitening matrix of a
positive-definite covariance is invertible. -/
theorem whitening_det_ne_zero (N : Numerics ℝ) (cov : Matrix (Fin 6) (Fin 6) ℝ)
    (hW : N.WhiteningSound cov) (hcov : cov.PosDef) :
    (N.lltMatrixU (N.inverse cov)).det ≠ 0 := by
  obtain ⟨hinv, -, -, hUU⟩ := hW hcov
  intro h0
  have h1 : (N.inverse cov).det * cov.det = 1 := by
    rw [← Matrix.det_mul, hinv, Matrix.det_one]
  have h2 : (N.inverse cov).det = 0 := by
    rw [← hUU, Matrix.det_mul, h0, mul_zero]
  rw [h2, zero_mul] at h1
  exact zero_ne_one h1

/-- Under the contract of the Eigen routines the whitening matrix of `k * S` is
`1/sqrt k` times the whitening matrix of `S`. -/
theorem whitening_smul (N : Numerics ℝ) (S : Matrix (Fin 6) (Fin 6) ℝ) (k : ℝ)
    (hS : S.PosDef) (hk : 0 < k) (hN : N.WhiteningSound S)
    (hNk : N.WhiteningSound (k • S)) :
    N.lltMatrixU (N.inverse (k • S)) = (1 / Real.sqrt k) • N.lltMatrixU (N.inverse S) := by
  obtain ⟨hinv, hU⟩ := hN hS
  obtain ⟨hinvk, hUk⟩ := hNk (posDef_smul hS hk)
  have e1 : N.inverse S = S⁻¹ := (Matrix.inv_eq_left_inv hinv).symm
  have e2 : N.inverse (k • S) = (k • S)⁻¹ := (Matrix.inv_eq_left_inv hinvk).symm
  have e3 : (k • S)⁻¹ = k⁻¹ • S⁻¹ := by
    apply Matrix.inv_eq_left_inv
    rw [Matrix.smul_mul, Matrix.mul_smul, smul_smul, inv_mul_cancel₀ hk.ne', one_smul,
      ← e1, hinv]
  have e4 : k⁻¹ • N.inverse S = N.inverse (k • S) := by rw [e2, e3, e1]
  have hscaled := hU.smul hk
  rw [e4] at hscaled
  exact hUk.unique hscaled

/-- The squared norm of the rotation error is the product of the squared norms
of estimate and measurement. -/
theorem rotation_error_norm {T : Type} [Field T] (e m : Fin 4 → T) :
    (ceres.QuaternionProduct (RotationAlgebra.invert e) m) 0
        * (ceres.QuaternionProduct (RotationAlgebra.invert e) m) 0
      + (ceres.QuaternionProduct (RotationAlgebra.invert e) m) 1
        * (ceres.QuaternionProduct (RotationAlgebra.invert e) m) 1
      + (ceres.QuaternionProduct (RotationAlgebra.invert e) m) 2
        * (ceres.QuaternionProduct (RotationAlgebra.invert e) m) 2
      + (ceres.QuaternionProduct (RotationAlgebra.invert e) m) 3
        * (ceres.QuaternionProduct (RotationAlgebra.invert e) m) 3
      = (e 0 ^ 2 + e 1 ^ 2 + e 2 ^ 2 + e 3 ^ 2) * (m 0 ^ 2 + m 1 ^ 2 + m 2 ^ 2 + m 3 ^ 2) := by
  simp [ceres.QuaternionProduct, RotationAlgebra.invert]
  ring

/-- Multiplying the rotation error by the estimate from the left gives the
measurement back, scaled by the squared norm of the estimate. -/
theorem rotation_error_recover {T : Type} [Field T] (e m : Fin 4 → T) :
    ceres.QuaternionProduct e (ceres.QuaternionProduct (RotationAlgebra.invert e) m)
      = fun i => (e 0 ^ 2 + e 1 ^ 2 + e 2 ^ 2 + e 3 ^ 2) * m i := by
  ext i
  fin_cases i <;> simp [ceres.QuaternionProduct, RotationAlgebra.invert] <;> ring

/-- The product with a quaternion without vector part is a scaling. -/
theorem ceres.QuaternionProduct_of_vector_part_zero {T : Type} [Field T] (z w : Fin 4 → T)
    (h1 : w 1 = 0) (h2 : w 2 = 0) (h3 : w 3 = 0) :
    ceres.QuaternionProduct z w = fun i => z i * w 0 := by
  ext i
  fin_cases i <;> simp [ceres.QuaternionProduct, h1, h2, h3]

/-- The LDL decomposition of a positive-definite matrix: a lower triangular `L`
with a diagonal free of zeros and positive weights `d`. -/
theorem exists_ldl_of_linearOrder {m : Type} [LinearOrder m] [WellFoundedLT m]
    [LocallyFiniteOrderBot m] [Fintype m] (A : Matrix m m ℝ) (hA : A.PosDef) :
    ∃ (L : Matrix m m ℝ) (d : m → ℝ),
      (∀ i j, i < j → L i j = 0) ∧ (∀ i, L i i ≠ 0) ∧ (∀ i, 0 < d i)
        ∧ ∀ i j, A i j = ∑ k, L i k * d k * L j k := by
  have hL := LDL.lower_conj_diag hA
  have hMtri : Matrix.BlockTriangular (LDL.lowerInv hA) OrderDual.toDual :=
    fun i j hij => LDL.lowerInv_triangular hA hij
  have hLtri : Matrix.BlockTriangular (LDL.lower hA) OrderDual.toDual :=
    Matrix.blockTriangular_inv_of_blockTriangular hMtri
  have hdet : (LDL.lowerInv hA).det * (LDL.lower hA).det = 1 := by
    rw [← Matrix.det_mul, LDL.lower, Matrix.mul_inv_of_invertible, Matrix.det_one]
  refine ⟨LDL.lower hA, LDL.diagEntries hA, ?_, ?_, ?_, ?_⟩
  · intro i j hij
    exact hLtri hij
  · intro i h0
    have : (LDL.lower hA).det = 0 := by
      rw [Matrix.det_of_lowerTriangular _ hLtri]
      exact Finset.prod_eq_zero (Finset.mem_univ i) h0
    rw [this, mul_zero] at hdet
    exact zero_ne_one hdet
  · intro i
    have hrow : star (LDL.lowerInv hA i) ≠ 0 := by
      intro h0
      have hz : LDL.lowerInv hA i = 0 := by simpa using h0
      have : (LDL.lowerInv hA).det = 0 :=
        Matrix.det_eq_zero_of_row_eq_zero i (fun j => congrFun hz j)
      rw [this, zero_mul] at hdet
      exact zero_ne_one hdet
    have := hA.2 _ hrow
    rw [LDL.diagEntries, EuclideanSpace.inner_piLp_equiv_symm]
    exact this
  · intro i j
    have := congrFun (congrFun hL i) j
    rw [← this, LDL.diag, Matrix.mul_apply]
    simp [Matrix.mul_diagonal]

/-- Every positive-definite real matrix has an upper Cholesky factor. -/
theorem exists_isCholeskyUpper {n : Nat} (A : Matrix (Fin n) (Fin n) ℝ) (hA : A.PosDef) :
    ∃ U, IsCholeskyUpper A U := by
  obtain ⟨L, d, hLtri, hLdiag, hd, hA2⟩ :=
    @exists_ldl_of_linearOrder (Fin n) (inferInstanceAs (LinearOrder (Fin n)))
      (inferInstanceAs (WellFoundedLT (Fin n))) _ _ A hA
  -- weights with the sign of the diagonal of `L`
  let c : Fin n → ℝ := fun i => (if 0 < L i i then 1 else -1) * Real.sqrt (d i)
  have hc : ∀ i, c i * c i = d i := by
    intro i
    simp only [c]
    split_ifs <;> nlinarith [Real.mul_self_sqrt (hd i).le]
  refine ⟨fun i j => c i * L j i, ?_, ?_, ?_⟩
  · intro i j hij
    simp only [hLtri j i hij, mul_zero]
  · intro i
    have hs : 0 < Real.sqrt (d i) := Real.sqrt_pos.mpr (hd i)
    simp only [c]
    split_ifs with h
    · nlinarith
    · have : L i i < 0 := lt_of_le_of_ne (not_lt.mp h) (hLdiag i)
      nlinarith
  · ext i j
    rw [Matrix.mul_apply, hA2 i j]
    apply Finset.sum_congr rfl
    intro k _
    simp only [Matrix.transpose_apply]
    rw [← hc k]
    ring

/-- The inverse of a positive-definite real matrix is an inverse and has an
upper Cholesky factor. -/
theorem exists_isCholeskyUpper_inv {n : Nat} (cov : Matrix (Fin n) (Fin n) ℝ)
    (hcov : cov.PosDef) : cov⁻¹ * cov = 1 ∧ ∃ U, IsCholeskyUpper cov⁻¹ U :=
  ⟨Matrix.nonsing_inv_mul _ ((Matrix.isUnit_iff_isUnit_det _).mp hcov.isUnit),
    exists_isCholeskyUpper cov⁻¹ hcov.inv⟩

/-- The contracts of the external routines can be met at every covariance at
once: the real `sqrt` and `atan2`, the matrix inverse and a choice of the upper
Cholesky factor are sound. -/
theorem exists_sound_numerics :
    ∃ N : Numerics ℝ, N.ScalarSound ∧ ∀ cov, N.WhiteningSound cov := by
  classical
  refine ⟨⟨Real.sqrt, fun y x => Complex.arg ⟨x, y⟩, fun A => A⁻¹,
    fun A => if h : ∃ U, IsCholeskyUpper A U then Classical.choose h else 0⟩,
    ⟨fun _ => rfl, fun _ _ => rfl⟩, ?_⟩
  intro cov hcov
  obtain ⟨hinv, hex⟩ := exists_isCholeskyUpper_inv cov hcov
  refine ⟨hinv, ?_⟩
  simp only [dif_pos hex]
  exact Classical.choose_spec hex

/-- The real square root and argument are sound scalar routines. -/
theorem real_numerics_scalarSound
    (inv llt : Matrix (Fin 6) (Fin 6) ℝ → Matrix (Fin 6) (Fin 6) ℝ) :
    Numerics.ScalarSound ⟨Real.sqrt, fun y x => Complex.arg ⟨x, y⟩, inv, llt⟩ :=
  ⟨fun _ => rfl, fun _ _ => rfl⟩

/-- On a diagonal covariance with positive entries the matrix inverse and the
entrywise square root of the diagonal meet the contract of the Eigen routines. -/
theorem real_numerics_whiteningSound_diagonal (sqrt : ℝ → ℝ) (atan2 : ℝ → ℝ → ℝ)
    (d : Fin 6 → ℝ) (hd : ∀ i, 0 < d i) :
    Numerics.WhiteningSound
      ⟨sqrt, atan2, fun A => A⁻¹, fun A => Matrix.diagonal fun i => Real.sqrt (A i i)⟩
      (Matrix.diagonal d) := by
  intro _
  have hinv : (Matrix.diagonal d)⁻¹ = Matrix.diagonal fun i => (d i)⁻¹ := by
    apply Matrix.inv_eq_left_inv
    rw [Matrix.diagonal_mul_diagonal]
    have : (fun i => (d i)⁻¹ * d i) = fun _ => (1 : ℝ) := by
      ext i
      exact inv_mul_cancel₀ (hd i).ne'
    rw [this, Matrix.diagonal_one]
  have hpos : ∀ i, 0 < (d i)⁻¹ := fun i => inv_pos.mpr (hd i)
  simp only [hinv, Matrix.diagonal_apply_eq]
  refine ⟨?_, ?_, ?_, ?_⟩
  · rw [Matrix.diagonal_mul_diagonal]
    have : (fun i => (d i)⁻¹ * d i) = fun _ => (1 : ℝ) := by
      ext i
      exact inv_mul_cancel₀ (hd i).ne'
    rw [this, Matrix.diagonal_one]
  · intro i j hij
    exact Matrix.diagonal_apply_ne _ hij.ne'
  · intro i
    rw [Matrix.diagonal_apply_eq]
    exact Real.sqrt_pos.mpr (hpos i)
  · rw [Matrix.diagonal_transpose, Matrix.diagonal_mul_diagonal]
    have : (fun i => Real.sqrt (d i)⁻¹ * Real.sqrt (d i)⁻¹) = fun i => (d i)⁻¹ := by
      ext i
      exact Real.mul_self_sqrt (hpos i).le
    rw [this]

/-- The diagonal `(1, 2, 3, 4, 5, 6)` is positive, and so is a positive multiple. -/
theorem diagonal_entries_pos (k : ℝ) (hk : 0 < k) :
    ∀ i : Fin 6, 0 < k * ((i : ℝ) + 1) := by
  intro i
  positivity

/-! ## Pose measurement residual -/

/-- C7: for a positive-definite covariance, a unit measured quaternion `q_meas`
and a translation `t_meas`, `CameraPoseCostFunction` evaluated at
`t_est = t_meas` and `q_est = q_meas`, and also at `q_est = -q_meas`, returns
the zero 6-vector.  On the way the normalised rotation error is `(1,0,0,0)`,
respectively `(-1,0,0,0)`: the norm it is divided by is `sqrt 1 = 1`.  The
covariance enters through the whitening matrix only, which here multiplies the
zero vector. -/
theorem camera_pose_zero_at_measurement (N : Numerics ℝ)
    (cov : Matrix (Fin 6) (Fin 6) ℝ) (q_meas : Fin 4 → ℝ) (t_meas : Fin 3 → ℝ)
    (hN : N.ScalarSound) (_hcov : cov.PosDef)
    (hq : q_meas 0 ^ 2 + q_meas 1 ^ 2 + q_meas 2 ^ 2 + q_meas 3 ^ 2 = 1) :
    (((CameraPoseCostFunction.Create q_meas t_meas cov).call N q_meas t_meas).2 = 0
      ∧ ((CameraPoseCostFunction.Create q_meas t_meas cov).call N (-q_meas) t_meas).2 = 0)
    ∧ RotationAlgebra.normalize N
        (ceres.QuaternionProduct (RotationAlgebra.invert q_meas) q_meas) = ![1, 0, 0, 0]
    ∧ RotationAlgebra.normalize N
        (ceres.QuaternionProduct (RotationAlgebra.invert (-q_meas)) q_meas)
          = ![-1, 0, 0, 0] := by
  have h0 : Fin.append (0 : Fin 3 → ℝ) (0 : Fin 3 → ℝ) = (0 : Fin 6 → ℝ) := by
    ext i
    fin_cases i <;> rfl
  have hq2 : q_meas 0 * q_meas 0 + q_meas 1 * q_meas 1 + q_meas 2 * q_meas 2
      + q_meas 3 * q_meas 3 = 1 := by
    rw [← hq]
    ring
  refine ⟨?_, ?_, ?_⟩
  · rw [CameraPoseCostFunction.call_eq, CameraPoseCostFunction.call_eq]
    simp only [(rotation_error_vector_part_self N q_meas).1,
      (rotation_error_vector_part_self N q_meas).2, sub_self, h0, Matrix.mulVec_zero, and_self]
  · have hn := rotation_error_norm q_meas q_meas
    rw [hq, one_mul] at hn
    ext i
    simp only [RotationAlgebra.normalize, hn, hN.1, Real.sqrt_one, div_one]
    fin_cases i <;> simp [ceres.QuaternionProduct, RotationAlgebra.invert] <;> linarith
  · have hn := rotation_error_norm (-q_meas) q_meas
    simp only [Pi.neg_apply, neg_sq, hq, one_mul] at hn
    ext i
    simp only [RotationAlgebra.normalize, hn, hN.1, Real.sqrt_one, div_one]
    fin_cases i <;> simp [ceres.QuaternionProduct, RotationAlgebra.invert] <;> linarith

/-- C7 at a concrete input: covariance `diag(1,..,6)`, measured rotation
`(3/5, 4/5, 0, 0)`, measured translation `(1, 2, 3)`, real `sqrt` and `atan2`. -/
theorem camera_pose_zero_at_measurement_witness :
    (Matrix.diagonal fun i : Fin 6 => (i : ℝ) + 1 : Matrix (Fin 6) (Fin 6) ℝ).PosDef
    ∧ ((CameraPoseCostFunction.Create ![3 / 5, 4 / 5, 0, 0] ![1, 2, 3]
          (Matrix.diagonal fun i : Fin 6 => (i : ℝ) + 1)).call
        (⟨Real.sqrt, fun y x => Complex.arg ⟨x, y⟩, fun A => A⁻¹,
          fun A => Matrix.diagonal fun i => Real.sqrt (A i i)⟩ : Numerics ℝ)
        ![3 / 5, 4 / 5, 0, 0] ![1, 2, 3]).2 = 0
    ∧ ((CameraPoseCostFunction.Create ![3 / 5, 4 / 5, 0, 0] ![1, 2, 3]
          (Matrix.diagonal fun i : Fin 6 => (i : ℝ) + 1)).call
        (⟨Real.sqrt, fun y x => Complex.arg ⟨x, y⟩, fun A => A⁻¹,
          fun A => Matrix.diagonal fun i => Real.sqrt (A i i)⟩ : Numerics ℝ)
        (-![3 / 5, 4 / 5, 0, 0]) ![1, 2, 3]).2 = 0 := by
  have hpd : (Matrix.diagonal fun i : Fin 6 => (i : ℝ) + 1 : Matrix (Fin 6) (Fin 6) ℝ).PosDef :=
    Matrix.PosDef.diagonal (by simpa using diagonal_entries_pos 1 one_pos)
  have h := camera_pose_zero_at_measurement
    (⟨Real.sqrt, fun y x => Complex.arg ⟨x, y⟩, fun A => A⁻¹,
      fun A => Matrix.diagonal fun i => Real.sqrt (A i i)⟩ : Numerics ℝ)
    (Matrix.diagonal fun i : Fin 6 => (i : ℝ) + 1) ![3 / 5, 4 / 5, 0, 0] ![1, 2, 3]
    (real_numerics_scalarSound _ _) hpd (by norm_num)
  exact ⟨hpd, h.1.1, h.1.2⟩

/-- C9: `CameraPoseCostFunction` succeeds with the residual of section 4.2,
`W * [dt; dr]`: a 6-vector whose `i`-th entry is row `i` of `W` against the
three entries of `dt = t_est - t_meas` followed by the three entries of `dr`,
the axis-angle vector of the normalised quaternion product of the conjugate of
`q_est` (left) with `q_meas` (right).  `W` is what `LLT::matrixU()` returns for
what `inverse()` returns for the covariance; when `inverse()` returns the
inverse and `LLT::matrixU()` its upper Cholesky factor, `W` is the upper
Cholesky factor of the inverse covariance, whichever way that factor is
given. -/
theorem camera_pose_eq_pose_measurement_residual {T : Type} [LinearOrderedField T]
    (N : Numerics T) (q_meas : Fin 4 → T) (t_meas : Fin 3 → T)
    (cov : Matrix (Fin 6) (Fin 6) T) (q_est : Fin 4 → T) (t_est : Fin 3 → T) :
    (CameraPoseCostFunction.Create q_meas t_meas cov).call N q_est t_est
      = (true, PoseMeasurementResidual N q_meas t_meas cov q_est t_est)
    ∧ (∀ i : Fin 6, PoseMeasurementResidual N q_meas t_meas cov q_est t_est i
        = ∑ j : Fin 3, N.lltMatrixU (N.inverse cov) i (Fin.castAdd 3 j)
              * (t_est j - t_meas j)
          + ∑ j : Fin 3, N.lltMatrixU (N.inverse cov) i (Fin.natAdd 3 j)
              * ceres.QuaternionToAngleAxis N
                  (RotationAlgebra.normalize N
                    (ceres.QuaternionProduct ![q_est 0, -q_est 1, -q_est 2, -q_est 3]
                      q_meas)) j)
    ∧ (N.inverse cov * cov = 1 →
        IsCholeskyUpper (N.inverse cov) (N.lltMatrixU (N.inverse cov)) →
        ∀ W : Matrix (Fin 6) (Fin 6) T, IsCholeskyUpper cov⁻¹ W →
          (CameraPoseCostFunction.Create q_meas t_meas cov).call N q_est t_est
            = (true, Matrix.mulVec W
                (Fin.append (t_est - t_meas)
                  (ceres.QuaternionToAngleAxis N
                    (RotationAlgebra.normalize N
                      (ceres.QuaternionProduct ![q_est 0, -q_est 1, -q_est 2, -q_est 3]
                        q_meas)))))) := by
  refine ⟨?_, ?_, ?_⟩
  · rw [CameraPoseCostFunction.call_eq]
    rfl
  · intro i
    simp only [PoseMeasurementResidual, Matrix.mulVec, Matrix.dotProduct]
    change ∑ x : Fin (3 + 3), _ = _
    rw [Fin.sum_univ_add]
    simp only [Fin.append_left, Fin.append_right, Pi.sub_apply, RotationAlgebra.toAxisAngle,
      RotationAlgebra.compose, RotationAlgebra.invert]
  · intro hinv hllt W hW
    rw [← Matrix.inv_eq_left_inv hinv] at hllt
    rw [CameraPoseCostFunction.call_eq, ← Matrix.inv_eq_left_inv hinv, hW.unique hllt]
    rfl

/-- C8: for a positive-definite covariance, unit quaternions `q_est`, `q_meas`
and translations `t_est`, `t_meas`, with real `sqrt` and `atan2` and the Eigen
routines meeting their contract at the covariance, the residual of
`CameraPoseCostFunction` is the zero 6-vector if and only if `t_est = t_meas`
and `q_est = q_meas` or `q_est = -q_meas`. -/
theorem camera_pose_zero_iff (N : Numerics ℝ)
    (cov : Matrix (Fin 6) (Fin 6) ℝ) (q_meas q_est : Fin 4 → ℝ) (t_meas t_est : Fin 3 → ℝ)
    (hN : N.ScalarSound) (hW : N.WhiteningSound cov) (hcov : cov.PosDef)
    (hqm : q_meas 0 ^ 2 + q_meas 1 ^ 2 + q_meas 2 ^ 2 + q_meas 3 ^ 2 = 1)
    (hqe : q_est 0 ^ 2 + q_est 1 ^ 2 + q_est 2 ^ 2 + q_est 3 ^ 2 = 1) :
    ((CameraPoseCostFunction.Create q_meas t_meas cov).call N q_est t_est).2 = 0
      ↔ t_est = t_meas ∧ (q_est = q_meas ∨ q_est = -q_meas) := by
  have h0 : Fin.append (0 : Fin 3 → ℝ) (0 : Fin 3 → ℝ) = (0 : Fin 6 → ℝ) := by
    ext i
    fin_cases i <;> rfl
  rw [CameraPoseCostFunction.call_eq]
  constructor
  · intro h
    have hv := Matrix.eq_zero_of_mulVec_eq_zero (whitening_det_ne_zero N cov hW hcov) h
    have ht : t_est = t_meas := by
      ext i
      have := congrFun hv (Fin.castAdd 3 i)
      rw [Fin.append_left] at this
      simpa [sub_eq_zero] using this
    have hr : ceres.QuaternionToAngleAxis N (RotationAlgebra.normalize N
        (ceres.QuaternionProduct (RotationAlgebra.invert q_est) q_meas)) = 0 := by
      ext i
      have := congrFun hv (Fin.natAdd 3 i)
      rw [Fin.append_right] at this
      simpa using this
    refine ⟨ht, ?_⟩
    have hn := rotation_error_norm q_est q_meas
    rw [hqm, hqe, one_mul] at hn
    have hnorm : RotationAlgebra.normalize N
        (ceres.QuaternionProduct (RotationAlgebra.invert q_est) q_meas)
        = ceres.QuaternionProduct (RotationAlgebra.invert q_est) q_meas := by
      ext i
      simp only [RotationAlgebra.normalize, hn, hN.1, Real.sqrt_one, div_one]
    rw [hnorm] at hr
    obtain ⟨h1, h2, h3⟩ := (ceres.QuaternionToAngleAxis_eq_zero_iff N hN _).mp hr
    rw [h1, h2, h3] at hn
    have hd : (ceres.QuaternionProduct (RotationAlgebra.invert q_est) q_meas) 0 = 1
        ∨ (ceres.QuaternionProduct (RotationAlgebra.invert q_est) q_meas) 0 = -1 := by
      apply mul_self_eq_one_iff.mp
      linarith
    have hrec := rotation_error_recover q_est q_meas
    rw [ceres.QuaternionProduct_of_vector_part_zero _ _ h1 h2 h3, hqe] at hrec
    rcases hd with hd | hd
    · left
      ext i
      have := congrFun hrec i
      simp only [hd, mul_one, one_mul] at this
      exact this
    · right
      ext i
      have := congrFun hrec i
      simp only [hd, mul_neg, mul_one, one_mul] at this
      simp only [Pi.neg_apply]
      linarith
  · rintro ⟨ht, hq | hq⟩
    · rw [ht, hq, (rotation_error_vector_part_self N q_meas).1, sub_self, h0,
        Matrix.mulVec_zero]
    · rw [ht, hq, (rotation_error_vector_part_self N q_meas).2, sub_self, h0,
        Matrix.mulVec_zero]

/-- C10: for a positive-definite covariance `S` and `k > 0`, with the Eigen
routines meeting their contract at `S` and at `k * S`, the residual of
`CameraPoseCostFunction` built with covariance `k * S` is `1/sqrt k` times the
residual of the one built with `S`, component by component, for the same
measurement and estimate. -/
theorem camera_pose_covariance_scaling (N : Numerics ℝ)
    (S : Matrix (Fin 6) (Fin 6) ℝ) (k : ℝ)
    (q_meas q_est : Fin 4 → ℝ) (t_meas t_est : Fin 3 → ℝ)
    (hS : S.PosDef) (hk : 0 < k)
    (hN : N.WhiteningSound S) (hNk : N.WhiteningSound (k • S)) :
    ∀ i : Fin 6,
      ((CameraPoseCostFunction.Create q_meas t_meas (k • S)).call N q_est t_est).2 i
        = 1 / Real.sqrt k
          * ((CameraPoseCostFunction.Create q_meas t_meas S).call N q_est t_est).2 i := by
  intro i
  rw [CameraPoseCostFunction.call_eq, CameraPoseCostFunction.call_eq]
  simp only [whitening_smul N S k hS hk hN hNk, Matrix.smul_mulVec_assoc, Pi.smul_apply,
    smul_eq_mul]

/-- C8 at a concrete input: covariance `diag(1,..,6)`, measurement
`(3/5, 4/5, 0, 0)`, `(1, 2, 3)`, estimate `(-3/5, -4/5, 0, 0)`, `(1, 2, 3)`: the
estimate is the negated measurement and the residual is zero; with the estimate
`(1, 0, 0, 0)` the residual is not zero. -/
theorem camera_pose_zero_iff_witness :
    ((CameraPoseCostFunction.Create ![3 / 5, 4 / 5, 0, 0] ![1, 2, 3]
          (Matrix.diagonal fun i : Fin 6 => (i : ℝ) + 1)).call
        (⟨Real.sqrt, fun y x => Complex.arg ⟨x, y⟩, fun A => A⁻¹,
          fun A => Matrix.diagonal fun i => Real.sqrt (A i i)⟩ : Numerics ℝ)
        ![-(3 / 5), -(4 / 5), 0, 0] ![1, 2, 3]).2 = 0
    ∧ ((CameraPoseCostFunction.Create ![3 / 5, 4 / 5, 0, 0] ![1, 2, 3]
          (Matrix.diagonal fun i : Fin 6 => (i : ℝ) + 1)).call
        (⟨Real.sqrt, fun y x => Complex.arg ⟨x, y⟩, fun A => A⁻¹,
          fun A => Matrix.diagonal fun i => Real.sqrt (A i i)⟩ : Numerics ℝ)
        ![1, 0, 0, 0] ![1, 2, 3]).2 ≠ 0 := by
  have hpd : (Matrix.diagonal fun i : Fin 6 => (i : ℝ) + 1 : Matrix (Fin 6) (Fin 6) ℝ).PosDef :=
    Matrix.PosDef.diagonal (by simpa using diagonal_entries_pos 1 one_pos)
  have hW := real_numerics_whiteningSound_diagonal Real.sqrt (fun y x => Complex.arg ⟨x, y⟩)
    (fun i : Fin 6 => (i : ℝ) + 1) (by simpa using diagonal_entries_pos 1 one_pos)
  constructor
  · refine (camera_pose_zero_iff _ _ ![3 / 5, 4 / 5, 0, 0] ![-(3 / 5), -(4 / 5), 0, 0]
      ![1, 2, 3] ![1, 2, 3] (real_numerics_scalarSound _ _) hW hpd (by norm_num)
      (by norm_num)).mpr ⟨rfl, Or.inr ?_⟩
    ext i
    fin_cases i <;> simp
  · intro h
    have h2 := (camera_pose_zero_iff _ _ ![3 / 5, 4 / 5, 0, 0] ![1, 0, 0, 0]
      ![1, 2, 3] ![1, 2, 3] (real_numerics_scalarSound _ _) hW hpd (by norm_num)
      (by norm_num)).mp h
    rcases h2.2 with h3 | h3
    · have := congrFun h3 0
      norm_num at this
    · have := congrFun h3 0
      norm_num at this

/-- C10 at a concrete input: covariance `diag(1,..,6)` and `k = 4`, the first
component of the residual. -/
theorem camera_pose_covariance_scaling_witness :
    ((CameraPoseCostFunction.Create ![3 / 5, 4 / 5, 0, 0] ![1, 2, 3]
          ((4 : ℝ) • Matrix.diagonal fun i : Fin 6 => (i : ℝ) + 1)).call
        (⟨Real.sqrt, fun y x => Complex.arg ⟨x, y⟩, fun A => A⁻¹,
          fun A => Matrix.diagonal fun i => Real.sqrt (A i i)⟩ : Numerics ℝ)
        ![1, 0, 0, 0] ![2, 2, 2]).2 0
      = 1 / Real.sqrt 4
        * ((CameraPoseCostFunction.Create ![3 / 5, 4 / 5, 0, 0] ![1, 2, 3]
            (Matrix.diagonal fun i : Fin 6 => (i : ℝ) + 1)).call
          (⟨Real.sqrt, fun y x => Complex.arg ⟨x, y⟩, fun A => A⁻¹,
            fun A => Matrix.diagonal fun i => Real.sqrt (A i i)⟩ : Numerics ℝ)
          ![1, 0, 0, 0] ![2, 2, 2]).2 0 := by
  have hpd : (Matrix.diagonal fun i : Fin 6 => (i : ℝ) + 1 : Matrix (Fin 6) (Fin 6) ℝ).PosDef :=
    Matrix.PosDef.diagonal (by simpa using diagonal_entries_pos 1 one_pos)
  have hW := real_numerics_whiteningSound_diagonal Real.sqrt (fun y x => Complex.arg ⟨x, y⟩)
    (fun i : Fin 6 => (i : ℝ) + 1) (by simpa using diagonal_entries_pos 1 one_pos)
  have hW4 := real_numerics_whiteningSound_diagonal Real.sqrt
    (fun y x => Complex.arg ⟨x, y⟩) (fun i : Fin 6 => 4 * ((i : ℝ) + 1))
    (diagonal_entries_pos 4 (by norm_num))
  have e4 : (Matrix.diagonal fun i : Fin 6 => 4 * ((i : ℝ) + 1))
      = (4 : ℝ) • Matrix.diagonal fun i : Fin 6 => (i : ℝ) + 1 := by
    rw [← Matrix.diagonal_smul]
    rfl
  rw [e4] at hW4
  exact camera_pose_covariance_scaling _ _ 4 ![3 / 5, 4 / 5, 0, 0] ![1, 0, 0, 0]
    ![1, 2, 3] ![2, 2, 2] hpd (by norm_num) hW hW4 0

/-! ## Two-view residual: helper facts -/

/-- The residual of `RelativePoseCostFunction` in the terms of section 4.6. -/
theorem RelativePoseCostFunction.call_eq_sampson {T : Type} [Field T] [DecidableEq T]
    (x1 x2 : Fin 2 → T) (qvec : Fin 4 → T) (tvec : Fin 3 → T) :
    (RelativePoseCostFunction.Create x1 x2).call qvec tvec
      = (true, (ceres.QuaternionToRotation qvec).bind fun R =>
          checkedDiv (EpipolarResidual.algebraicError (EpipolarResidual.essential R tvec) x1 x2
              * EpipolarResidual.algebraicError (EpipolarResidual.essential R tvec) x1 x2)
            (EpipolarResidual.sampsonDenominator (EpipolarResidual.essential R tvec) x1 x2)) := by
  simp only [RelativePoseCostFunction.call, RelativePoseCostFunction.Create,
    EpipolarResidual.algebraicError, EpipolarResidual.sampsonDenominator,
    EpipolarResidual.essential, EpipolarResidual.skew, EpipolarResidual.homogeneous, pow_two]

theorem ceres.QuaternionToRotation_identity {T : Type} [Field T] [DecidableEq T] :
    ceres.QuaternionToRotation (![1, 0, 0, 0] : Fin 4 → T) = some 1 := by
  have h : ceres.QuaternionToScaledRotation (![1, 0, 0, 0] : Fin 4 → T) = 1 := by
    ext i j
    fin_cases i <;> fin_cases j <;> (simp [ceres.QuaternionToScaledRotation]; try rfl)
  simp only [ceres.QuaternionToRotation, h, checkedDiv]
  simp
  ext i j
  simp

/-- The cross-product matrix of `t` applied to `v` is `t` cross `v`. -/
theorem EpipolarResidual.skew_mulVec {T : Type} [Field T] (t v : Fin 3 → T) :
    Matrix.mulVec (EpipolarResidual.skew t) v = crossProduct t v := by
  ext i
  fin_cases i <;>
    simp [EpipolarResidual.skew, Matrix.mulVec, Matrix.dotProduct, Fin.sum_univ_three,
      cross_apply] <;> ring

/-- The essential matrix applied to `v` is `t` cross `R v`. -/
theorem EpipolarResidual.essential_mulVec {T : Type} [Field T]
    (R : Matrix (Fin 3) (Fin 3) T) (t v : Fin 3 → T) :
    Matrix.mulVec (EpipolarResidual.essential R t) v = crossProduct t (Matrix.mulVec R v) := by
  rw [EpipolarResidual.essential, ← Matrix.mulVec_mulVec, EpipolarResidual.skew_mulVec]

/-- Scaling the translation scales the essential matrix. -/
theorem EpipolarResidual.essential_smul {T : Type} [Field T]
    (R : Matrix (Fin 3) (Fin 3) T) (t : Fin 3 → T) (k : T) :
    EpipolarResidual.essential R (k • t) = k • EpipolarResidual.essential R t := by
  have h : EpipolarResidual.skew (k • t) = k • EpipolarResidual.skew t := by
    ext i j
    fin_cases i <;> fin_cases j <;> simp [EpipolarResidual.skew]
  rw [EpipolarResidual.essential, h, EpipolarResidual.essential, Matrix.smul_mul]

theorem EpipolarResidual.algebraicError_smul {T : Type} [Field T]
    (E : Matrix (Fin 3) (Fin 3) T) (x1 x2 : Fin 2 → T) (k : T) :
    EpipolarResidual.algebraicError (k • E) x1 x2
      = k * EpipolarResidual.algebraicError E x1 x2 := by
  simp [EpipolarResidual.algebraicError, Matrix.smul_mulVec_assoc, Matrix.dotProduct_smul]

theorem EpipolarResidual.sampsonDenominator_smul {T : Type} [Field T]
    (E : Matrix (Fin 3) (Fin 3) T) (x1 x2 : Fin 2 → T) (k : T) :
    EpipolarResidual.sampsonDenominator (k • E) x1 x2
      = k * k * EpipolarResidual.sampsonDenominator E x1 x2 := by
  simp only [EpipolarResidual.sampsonDenominator, Matrix.smul_mulVec_assoc,
    Matrix.transpose_smul, Pi.smul_apply, smul_eq_mul]
  ring

theorem checkedDiv_mul_left {T : Type} [Field T] [DecidableEq T] (a b c : T) (hc : c ≠ 0) :
    checkedDiv (c * a) (c * b) = checkedDiv a b := by
  unfold checkedDiv
  by_cases hb : b = 0
  · simp [hb]
  · simp [hb, hc, mul_div_mul_left]

theorem checkedDiv_of_ne_zero {T : Type} [Field T] [DecidableEq T] (a b : T) (hb : b ≠ 0) :
    checkedDiv a b = some (a / b) := by
  simp [checkedDiv, hb]

theorem checkedDiv_zero {T : Type} [Field T] [DecidableEq T] (a : T) :
    checkedDiv a 0 = none := by
  simp [checkedDiv]

theorem EpipolarResidual.essential_one {T : Type} [Field T] (t : Fin 3 → T) :
    EpipolarResidual.essential 1 t = EpipolarResidual.skew t := by
  rw [EpipolarResidual.essential, Matrix.mul_one]

/-- The transposed cross-product matrix of `t` applied to `v` is `v` cross `t`. -/
theorem EpipolarResidual.skew_transpose_mulVec {T : Type} [Field T] (t v : Fin 3 → T) :
    Matrix.mulVec (EpipolarResidual.skew t).transpose v = crossProduct v t := by
  ext i
  fin_cases i <;>
    simp [EpipolarResidual.skew, Matrix.mulVec, Matrix.dotProduct, Fin.sum_univ_three,
      cross_apply] <;> ring

/-- The transposed essential matrix applied to `v`. -/
theorem EpipolarResidual.essential_transpose_mulVec {T : Type} [Field T]
    (R : Matrix (Fin 3) (Fin 3) T) (t v : Fin 3 → T) :
    Matrix.mulVec (EpipolarResidual.essential R t).transpose v
      = Matrix.mulVec R.transpose (crossProduct v t) := by
  rw [EpipolarResidual.essential, Matrix.transpose_mul, ← Matrix.mulVec_mulVec,
    EpipolarResidual.skew_transpose_mulVec]

/-- C12 (as stated) fails: `q = (1,0,0,0)`, `t = (0,0,1)` and both observations
at the epipole `(0,0)`.  The rotation matrix is the identity, the algebraic
epipolar error is 0 and so is the Sampson denominator: the residual is the
quotient of 0 by 0, which is no number, and not 0. -/
theorem relative_pose_epipole_residual_ne_zero :
    ceres.QuaternionToRotation (![1, 0, 0, 0] : Fin 4 → ℚ) = some 1
    ∧ EpipolarResidual.algebraicError (EpipolarResidual.essential 1 (![0, 0, 1] : Fin 3 → ℚ))
        ![0, 0] ![0, 0] = 0
    ∧ EpipolarResidual.sampsonDenominator
        (EpipolarResidual.essential 1 (![0, 0, 1] : Fin 3 → ℚ)) ![0, 0] ![0, 0] = 0
    ∧ ((RelativePoseCostFunction.Create ![0, 0] ![0, 0]).call
        (![1, 0, 0, 0] : Fin 4 → ℚ) ![0, 0, 1]).2 = none
    ∧ ((RelativePoseCostFunction.Create ![0, 0] ![0, 0]).call
        (![1, 0, 0, 0] : Fin 4 → ℚ) ![0, 0, 1]).2 ≠ some 0 := by
  have hs : EpipolarResidual.algebraicError
      (EpipolarResidual.essential 1 (![0, 0, 1] : Fin 3 → ℚ)) ![0, 0] ![0, 0] = 0 := by
    simp [EpipolarResidual.essential_one, EpipolarResidual.algebraicError,
      EpipolarResidual.skew_mulVec, EpipolarResidual.homogeneous, cross_apply,
      Matrix.dotProduct, Fin.sum_univ_three]
  have hD : EpipolarResidual.sampsonDenominator
      (EpipolarResidual.essential 1 (![0, 0, 1] : Fin 3 → ℚ)) ![0, 0] ![0, 0] = 0 := by
    simp [EpipolarResidual.essential_one, EpipolarResidual.sampsonDenominator,
      EpipolarResidual.skew_mulVec, EpipolarResidual.skew_transpose_mulVec,
      EpipolarResidual.homogeneous, cross_apply]
  have hc : ((RelativePoseCostFunction.Create ![0, 0] ![0, 0]).call
      (![1, 0, 0, 0] : Fin 4 → ℚ) ![0, 0, 1]).2 = none := by
    rw [RelativePoseCostFunction.call_eq_sampson, ceres.QuaternionToRotation_identity]
    simp only [Option.some_bind, hD, checkedDiv_zero]
  refine ⟨ceres.QuaternionToRotation_identity, hs, hD, hc, ?_⟩
  rw [hc]
  simp

/-! ## Two-view residual -/

/-- C12 (as the code has it): when the rotation matrix of `q` is defined, the
algebraic epipolar error of `(x1, x2)` for `E = [t]x * R(q)` is zero and the
Sampson denominator is not zero, `RelativePoseCostFunction` returns the
residual 0. -/
theorem relative_pose_zero_of_epipolar_constraint {T : Type} [Field T] [DecidableEq T]
    (x1 x2 : Fin 2 → T) (q : Fin 4 → T) (t : Fin 3 → T) (R : Matrix (Fin 3) (Fin 3) T)
    (hR : ceres.QuaternionToRotation q = some R)
    (hs : EpipolarResidual.algebraicError (EpipolarResidual.essential R t) x1 x2 = 0)
    (hD : EpipolarResidual.sampsonDenominator (EpipolarResidual.essential R t) x1 x2 ≠ 0) :
    (RelativePoseCostFunction.Create x1 x2).call q t = (true, some 0) := by
  rw [RelativePoseCostFunction.call_eq_sampson, hR]
  simp only [Option.some_bind, hs, mul_zero, checkedDiv_of_ne_zero _ _ hD, zero_div]

/-- C12 (as the code has it) at a concrete input: `q = (1,0,0,0)`,
`t = (0,0,1)`, `x1 = x2 = (1,0)`: the error is 0, the denominator is 2. -/
theorem relative_pose_zero_of_epipolar_constraint_witness :
    (RelativePoseCostFunction.Create ![1, 0] ![1, 0]).call
      (![1, 0, 0, 0] : Fin 4 → ℚ) ![0, 0, 1] = (true, some 0) := by
  apply relative_pose_zero_of_epipolar_constraint _ _ _ _ 1
    ceres.QuaternionToRotation_identity
  · simp [EpipolarResidual.essential_one, EpipolarResidual.algebraicError,
      EpipolarResidual.skew_mulVec, EpipolarResidual.homogeneous, cross_apply,
      Matrix.dotProduct, Fin.sum_univ_three]
  · simp [EpipolarResidual.essential_one, EpipolarResidual.sampsonDenominator,
      EpipolarResidual.skew_mulVec, EpipolarResidual.skew_transpose_mulVec,
      EpipolarResidual.homogeneous, cross_apply]

/-- C13: `RelativePoseCostFunction` succeeds, and its residual is the quotient
`s^2 / (Ex1[0]^2 + Ex1[1]^2 + Etx2[0]^2 + Etx2[1]^2)` of section 4.6 for
`E = [t]x * R`, `R` the rotation matrix of `q`: the quotient itself when `R` is
defined and the denominator is not zero, and no number otherwise.  The matrix
`[t]x` is skew-symmetric and `[t]x * v` is `t` cross `v`, so `E * v` is `t`
cross `R * v`. -/
theorem relative_pose_sampson_formula {T : Type} [Field T] [DecidableEq T]
    (x1 x2 : Fin 2 → T) (q : Fin 4 → T) (t : Fin 3 → T) :
    ((RelativePoseCostFunction.Create x1 x2).call q t).1 = true
    ∧ ((RelativePoseCostFunction.Create x1 x2).call q t).2
        = (ceres.QuaternionToRotation q).bind (fun R =>
            checkedDiv (EpipolarResidual.algebraicError (EpipolarResidual.essential R t) x1 x2 ^ 2)
              (EpipolarResidual.sampsonDenominator (EpipolarResidual.essential R t) x1 x2))
    ∧ (∀ R, ceres.QuaternionToRotation q = some R →
        EpipolarResidual.sampsonDenominator (EpipolarResidual.essential R t) x1 x2 ≠ 0 →
        ((RelativePoseCostFunction.Create x1 x2).call q t).2
          = some (EpipolarResidual.algebraicError (EpipolarResidual.essential R t) x1 x2 ^ 2
              / EpipolarResidual.sampsonDenominator (EpipolarResidual.essential R t) x1 x2))
    ∧ (EpipolarResidual.skew t).transpose = -EpipolarResidual.skew t
    ∧ (∀ v, Matrix.mulVec (EpipolarResidual.skew t) v = crossProduct t v)
    ∧ (∀ R v, Matrix.mulVec (EpipolarResidual.essential R t) v
        = crossProduct t (Matrix.mulVec R v)) := by
  refine ⟨?_, ?_, ?_, ?_, ?_, ?_⟩
  · rw [RelativePoseCostFunction.call_eq_sampson]
  · rw [RelativePoseCostFunction.call_eq_sampson]
    simp only [pow_two]
  · intro R hR hD
    rw [RelativePoseCostFunction.call_eq_sampson, hR]
    simp only [Option.some_bind, checkedDiv_of_ne_zero _ _ hD, pow_two]
  · ext i j
    fin_cases i <;> fin_cases j <;> simp [EpipolarResidual.skew]
  · exact EpipolarResidual.skew_mulVec t
  · intro R v
    exact EpipolarResidual.essential_mulVec R t v

/-- C13, the scenario of the specification: `x1 = (1,0)`, `x2 = (1,0)`,
`t = (0,0,1)`, `q = (1,0,0,0)`.  The essential matrix is
`[[0,-1,0],[1,0,0],[0,0,0]]`, `E x1 = (0,1,0)`, the transpose of `E` times `x2`
is `(0,-1,0)`, `s = 0`, the denominator is 2 and the residual is 0. -/
theorem relative_pose_sampson_formula_scenario :
    ceres.QuaternionToRotation (![1, 0, 0, 0] : Fin 4 → ℚ) = some 1
    ∧ EpipolarResidual.essential 1 (![0, 0, 1] : Fin 3 → ℚ)
        = Matrix.of ![![0, -1, 0], ![1, 0, 0], ![0, 0, 0]]
    ∧ Matrix.mulVec (EpipolarResidual.essential 1 (![0, 0, 1] : Fin 3 → ℚ))
        (EpipolarResidual.homogeneous ![1, 0]) = ![0, 1, 0]
    ∧ Matrix.mulVec (EpipolarResidual.essential 1 (![0, 0, 1] : Fin 3 → ℚ)).transpose
        (EpipolarResidual.homogeneous ![1, 0]) = ![0, -1, 0]
    ∧ EpipolarResidual.algebraicError (EpipolarResidual.essential 1 (![0, 0, 1] : Fin 3 → ℚ))
        ![1, 0] ![1, 0] = 0
    ∧ EpipolarResidual.sampsonDenominator
        (EpipolarResidual.essential 1 (![0, 0, 1] : Fin 3 → ℚ)) ![1, 0] ![1, 0] = 2
    ∧ ((RelativePoseCostFunction.Create ![1, 0] ![1, 0]).call
        (![1, 0, 0, 0] : Fin 4 → ℚ) ![0, 0, 1]).2 = some 0 := by
  have hD : EpipolarResidual.sampsonDenominator
      (EpipolarResidual.essential 1 (![0, 0, 1] : Fin 3 → ℚ)) ![1, 0] ![1, 0] = 2 := by
    simp [EpipolarResidual.essential_one, EpipolarResidual.sampsonDenominator,
      EpipolarResidual.skew_mulVec, EpipolarResidual.skew_transpose_mulVec,
      EpipolarResidual.homogeneous, cross_apply]
    norm_num
  have hs : EpipolarResidual.algebraicError
      (EpipolarResidual.essential 1 (![0, 0, 1] : Fin 3 → ℚ)) ![1, 0] ![1, 0] = 0 := by
    simp [EpipolarResidual.essential_one, EpipolarResidual.algebraicError,
      EpipolarResidual.skew_mulVec, EpipolarResidual.homogeneous, cross_apply,
      Matrix.dotProduct, Fin.sum_univ_three]
  refine ⟨ceres.QuaternionToRotation_identity, ?_, ?_, ?_, hs, hD, ?_⟩
  · rw [EpipolarResidual.essential_one]
    ext i j
    fin_cases i <;> fin_cases j <;> (simp [EpipolarResidual.skew]; try rfl)
  · rw [EpipolarResidual.essential_one, EpipolarResidual.skew_mulVec]
    ext i
    fin_cases i <;> simp [EpipolarResidual.homogeneous, cross_apply]
  · rw [EpipolarResidual.essential_one, EpipolarResidual.skew_transpose_mulVec]
    ext i
    fin_cases i <;> simp [EpipolarResidual.homogeneous, cross_apply]
  · rw [((relative_pose_sampson_formula ![1, 0] ![1, 0] (![1, 0, 0, 0] : Fin 4 → ℚ)
      ![0, 0, 1]).2.2.1 1 ceres.QuaternionToRotation_identity (by rw [hD]; norm_num)), hs]
    simp

/-- For a unit quaternion the rotation of a point is the scaled rotation matrix
applied to it. -/
theorem ceres.UnitQuaternionRotatePoint_eq_scaledRotation {T : Type} [Field T]
    (q : Fin 4 → T) (v : Fin 3 → T)
    (hq : q 0 * q 0 + q 1 * q 1 + q 2 * q 2 + q 3 * q 3 = 1) :
    ceres.UnitQuaternionRotatePoint q v
      = Matrix.mulVec (ceres.QuaternionToScaledRotation q) v := by
  ext i
  fin_cases i <;>
    simp [ceres.UnitQuaternionRotatePoint, ceres.QuaternionToScaledRotation, Matrix.mulVec,
      Matrix.dotProduct, Fin.sum_univ_three]
  · linear_combination (-v 0) * hq
  · linear_combination (-v 1) * hq
  · linear_combination (-v 2) * hq

/-- For a unit quaternion the rotation matrix is defined and is the scaled
rotation matrix. -/
theorem ceres.QuaternionToRotation_of_unit {T : Type} [Field T] [DecidableEq T]
    (q : Fin 4 → T) (hq : q 0 * q 0 + q 1 * q 1 + q 2 * q 2 + q 3 * q 3 = 1) :
    ceres.QuaternionToRotation q = some (ceres.QuaternionToScaledRotation q) := by
  simp only [ceres.QuaternionToRotation, hq, checkedDiv]
  simp
  ext i j
  simp

/-- C16: for `k` not zero `RelativePoseCostFunction` returns for `(q, k * t)`
what it returns for `(q, t)`. -/
theorem relative_pose_translation_scale_invariant {T : Type} [Field T] [DecidableEq T]
    (x1 x2 : Fin 2 → T) (q : Fin 4 → T) (t : Fin 3 → T) (k : T) (hk : k ≠ 0) :
    (RelativePoseCostFunction.Create x1 x2).call q (k • t)
      = (RelativePoseCostFunction.Create x1 x2).call q t := by
  rw [RelativePoseCostFunction.call_eq_sampson, RelativePoseCostFunction.call_eq_sampson]
  congr 2
  funext R
  rw [EpipolarResidual.essential_smul, EpipolarResidual.algebraicError_smul,
    EpipolarResidual.sampsonDenominator_smul]
  rw [show k * EpipolarResidual.algebraicError (EpipolarResidual.essential R t) x1 x2
        * (k * EpipolarResidual.algebraicError (EpipolarResidual.essential R t) x1 x2)
      = k * k * (EpipolarResidual.algebraicError (EpipolarResidual.essential R t) x1 x2
        * EpipolarResidual.algebraicError (EpipolarResidual.essential R t) x1 x2) by ring]
  exact checkedDiv_mul_left _ _ _ (mul_ne_zero hk hk)

/-- The two-view residual at `q = (1,0,0,0)`, `t = (1,0,0)`, `x1 = (0,0)`,
`x2 = (0,1)`: error `-1`, denominator 2. -/
theorem relative_pose_sample_values :
    EpipolarResidual.algebraicError (EpipolarResidual.essential 1 (![1, 0, 0] : Fin 3 → ℚ))
        ![0, 0] ![0, 1] = -1
    ∧ EpipolarResidual.sampsonDenominator
        (EpipolarResidual.essential 1 (![1, 0, 0] : Fin 3 → ℚ)) ![0, 0] ![0, 1] = 2 := by
  constructor
  · simp [EpipolarResidual.essential_one, EpipolarResidual.algebraicError,
      EpipolarResidual.skew_mulVec, EpipolarResidual.homogeneous, cross_apply,
      Matrix.dotProduct, Fin.sum_univ_three]
  · simp [EpipolarResidual.essential_one, EpipolarResidual.sampsonDenominator,
      EpipolarResidual.skew_mulVec, EpipolarResidual.skew_transpose_mulVec,
      EpipolarResidual.homogeneous, cross_apply]
    norm_num

/-- C16 at a concrete input: `k = 2`, `q = (1,0,0,0)`, `t = (1,0,0)`,
`x1 = (0,0)`, `x2 = (0,1)`; the residual is `1/2` for `t` and for `2 t`. -/
theorem relative_pose_translation_scale_invariant_witness :
    (RelativePoseCostFunction.Create ![0, 0] ![0, 1]).call
        (![1, 0, 0, 0] : Fin 4 → ℚ) ((2 : ℚ) • ![1, 0, 0])
      = (RelativePoseCostFunction.Create ![0, 0] ![0, 1]).call ![1, 0, 0, 0] ![1, 0, 0]
    ∧ (RelativePoseCostFunction.Create ![0, 0] ![0, 1]).call
        (![1, 0, 0, 0] : Fin 4 → ℚ) ![1, 0, 0] = (true, some (1 / 2)) := by
  refine ⟨relative_pose_translation_scale_invariant _ _ _ _ 2 (by norm_num), ?_⟩
  rw [RelativePoseCostFunction.call_eq_sampson, ceres.QuaternionToRotation_identity]
  simp only [Option.some_bind, relative_pose_sample_values.1, relative_pose_sample_values.2]
  rw [checkedDiv_of_ne_zero _ _ (by norm_num)]
  norm_num

/-- C19: take a quaternion `q` whose rotation matrix `R` is defined, a
translation `t` and a point `X` with non-zero depth in both views, and let `x1`
be `X` divided by its depth and `x2` be `R X + t` divided by its depth.  Then
the algebraic epipolar error of `(x1, x2)` for `E = [t]x * R` is zero, and
`RelativePoseCostFunction` built from `(x1, x2)` returns the residual 0 at
`(q, t)` whenever the Sampson denominator is not zero.  For a unit `q` the
point `R X` is the one `UnitQuaternionRotatePoint` gives the projection
functors. -/
theorem relative_pose_consistent_with_projection {T : Type} [Field T] [DecidableEq T]
    (q : Fin 4 → T) (t X : Fin 3 → T) (R : Matrix (Fin 3) (Fin 3) T)
    (hR : ceres.QuaternionToRotation q = some R) (hX : X 2 ≠ 0)
    (hY : (Matrix.mulVec R X + t) 2 ≠ 0) :
    EpipolarResidual.algebraicError (EpipolarResidual.essential R t)
        ![X 0 / X 2, X 1 / X 2]
        ![(Matrix.mulVec R X + t) 0 / (Matrix.mulVec R X + t) 2,
          (Matrix.mulVec R X + t) 1 / (Matrix.mulVec R X + t) 2] = 0
    ∧ (EpipolarResidual.sampsonDenominator (EpipolarResidual.essential R t)
        ![X 0 / X 2, X 1 / X 2]
        ![(Matrix.mulVec R X + t) 0 / (Matrix.mulVec R X + t) 2,
          (Matrix.mulVec R X + t) 1 / (Matrix.mulVec R X + t) 2] ≠ 0 →
      (RelativePoseCostFunction.Create ![X 0 / X 2, X 1 / X 2]
        ![(Matrix.mulVec R X + t) 0 / (Matrix.mulVec R X + t) 2,
          (Matrix.mulVec R X + t) 1 / (Matrix.mulVec R X + t) 2]).call q t = (true, some 0))
    ∧ (q 0 * q 0 + q 1 * q 1 + q 2 * q 2 + q 3 * q 3 = 1 →
        Matrix.mulVec R X = ceres.UnitQuaternionRotatePoint q X) := by
  have h1 : EpipolarResidual.homogeneous ![X 0 / X 2, X 1 / X 2] = (X 2)⁻¹ • X := by
    ext i
    fin_cases i <;> simp [EpipolarResidual.homogeneous, div_eq_inv_mul, hX]
  have h2 : EpipolarResidual.homogeneous
      ![(Matrix.mulVec R X + t) 0 / (Matrix.mulVec R X + t) 2,
        (Matrix.mulVec R X + t) 1 / (Matrix.mulVec R X + t) 2]
      = ((Matrix.mulVec R X + t) 2)⁻¹ • (Matrix.mulVec R X + t) := by
    have hY2 : Matrix.mulVec R X 2 + t 2 ≠ 0 := hY
    ext i
    fin_cases i <;> simp [EpipolarResidual.homogeneous, div_eq_inv_mul, hY2]
  have hs : EpipolarResidual.algebraicError (EpipolarResidual.essential R t)
      ![X 0 / X 2, X 1 / X 2]
      ![(Matrix.mulVec R X + t) 0 / (Matrix.mulVec R X + t) 2,
        (Matrix.mulVec R X + t) 1 / (Matrix.mulVec R X + t) 2] = 0 := by
    rw [EpipolarResidual.algebraicError, h1, h2, EpipolarResidual.essential_mulVec,
      Matrix.mulVec_smul, LinearMap.map_smul, Matrix.smul_dotProduct, Matrix.dotProduct_smul,
      Matrix.add_dotProduct, dot_cross_self, dot_self_cross]
    simp
  refine ⟨hs, ?_, ?_⟩
  · intro hD
    rw [RelativePoseCostFunction.call_eq_sampson, hR]
    simp only [Option.some_bind, hs, mul_zero, checkedDiv_of_ne_zero _ _ hD, zero_div]
  · intro hq
    rw [ceres.QuaternionToRotation_of_unit q hq] at hR
    rw [← Option.some.inj hR, ceres.UnitQuaternionRotatePoint_eq_scaledRotation q X hq]

/-- C19 at a concrete input: `q = (1,0,0,0)`, `t = (1,0,0)`, `X = (0,0,1)`, so
`x1 = (0,0)` and `x2 = (1,0)`; the denominator is 2 and the residual 0. -/
theorem relative_pose_consistent_with_projection_witness :
    (RelativePoseCostFunction.Create ![0, 0] ![1, 0]).call
      (![1, 0, 0, 0] : Fin 4 → ℚ) ![1, 0, 0] = (true, some 0) := by
  have h := relative_pose_consistent_with_projection (![1, 0, 0, 0] : Fin 4 → ℚ)
    ![1, 0, 0] ![0, 0, 1] 1 ceres.QuaternionToRotation_identity (by simp) (by simp)
  have hx : (Matrix.mulVec (1 : Matrix (Fin 3) (Fin 3) ℚ) ![0, 0, 1] + ![1, 0, 0])
      = ![1, 0, 1] := by
    ext i
    fin_cases i <;> simp
  simp only [hx] at h
  have hD : EpipolarResidual.sampsonDenominator
      (EpipolarResidual.essential 1 (![1, 0, 0] : Fin 3 → ℚ)) ![0, 0] ![1, 0] ≠ 0 := by
    simp [EpipolarResidual.essential_one, EpipolarResidual.sampsonDenominator,
      EpipolarResidual.skew_mulVec, EpipolarResidual.skew_transpose_mulVec,
      EpipolarResidual.homogeneous, cross_apply]
  simpa using h.2.1 (by simpa using hD)

/-- C20: when the rotation matrix `R` of `q` is defined and the Sampson
denominator is not zero, `RelativePoseCostFunction` returns a number, that
number is not negative, and it is zero only if the algebraic epipolar error is
zero. -/
theorem relative_pose_residual_nonneg {T : Type} [LinearOrderedField T]
    (x1 x2 : Fin 2 → T) (q : Fin 4 → T) (t : Fin 3 → T) (R : Matrix (Fin 3) (Fin 3) T)
    (hR : ceres.QuaternionToRotation q = some R)
    (hD : EpipolarResidual.sampsonDenominator (EpipolarResidual.essential R t) x1 x2 ≠ 0) :
    ∃ r : T, ((RelativePoseCostFunction.Create x1 x2).call q t).2 = some r ∧ 0 ≤ r
      ∧ (r = 0 →
          EpipolarResidual.algebraicError (EpipolarResidual.essential R t) x1 x2 = 0) := by
  have hpos : 0 < EpipolarResidual.sampsonDenominator (EpipolarResidual.essential R t) x1 x2 := by
    apply lt_of_le_of_ne _ (Ne.symm hD)
    unfold EpipolarResidual.sampsonDenominator
    positivity
  refine ⟨EpipolarResidual.algebraicError (EpipolarResidual.essential R t) x1 x2
      * EpipolarResidual.algebraicError (EpipolarResidual.essential R t) x1 x2
      / EpipolarResidual.sampsonDenominator (EpipolarResidual.essential R t) x1 x2, ?_, ?_, ?_⟩
  · rw [RelativePoseCostFunction.call_eq_sampson, hR]
    simp only [Option.some_bind, checkedDiv_of_ne_zero _ _ hD]
  · exact div_nonneg (mul_self_nonneg _) hpos.le
  · intro h0
    rcases div_eq_zero_iff.mp h0 with h | h
    · exact mul_self_eq_zero.mp h
    · exact absurd h hD

/-- C20 at a concrete input: `q = (1,0,0,0)`, `t = (1,0,0)`, `x1 = (0,0)`,
`x2 = (0,1)`, error `-1` and denominator 2: the residual is the number `1/2`,
which is not negative and not zero. -/
theorem relative_pose_residual_nonneg_witness :
    ((RelativePoseCostFunction.Create ![0, 0] ![0, 1]).call
        (![1, 0, 0, 0] : Fin 4 → ℚ) ![1, 0, 0]).2 = some (1 / 2)
      ∧ (0 : ℚ) ≤ 1 / 2 := by
  obtain ⟨r, hr, hpos, -⟩ := relative_pose_residual_nonneg ![0, 0] ![0, 1]
    (![1, 0, 0, 0] : Fin 4 → ℚ) ![1, 0, 0] 1 ceres.QuaternionToRotation_identity
    (by rw [relative_pose_sample_values.2]; norm_num)
  have hv : ((RelativePoseCostFunction.Create ![0, 0] ![0, 1]).call
      (![1, 0, 0, 0] : Fin 4 → ℚ) ![1, 0, 0]).2 = some (1 / 2) := by
    rw [RelativePoseCostFunction.call_eq_sampson, ceres.QuaternionToRotation_identity]
    simp only [Option.some_bind, relative_pose_sample_values.1, relative_pose_sample_values.2]
    rw [checkedDiv_of_ne_zero _ _ (by norm_num)]
    norm_num
  rw [hv] at hr
  have e := Option.some.inj hr
  rw [← e] at hpos
  exact ⟨hv, hpos⟩

/-! ## Rotation algebra -/

/-- The rotation of a point does not change when the quaternion is negated. -/
theorem ceres.UnitQuaternionRotatePoint_neg_quaternion {T : Type} [Field T]
    (q : Fin 4 → T) (pt : Fin 3 → T) :
    ceres.UnitQuaternionRotatePoint (-q) pt = ceres.UnitQuaternionRotatePoint q pt := by
  ext i
  fin_cases i <;> simp [ceres.UnitQuaternionRotatePoint]

/-- The rotation of the negated point is the negated rotation of the point. -/
theorem ceres.UnitQuaternionRotatePoint_neg_point {T : Type} [Field T]
    (q : Fin 4 → T) (pt : Fin 3 → T) :
    ceres.UnitQuaternionRotatePoint q (-pt) = -ceres.UnitQuaternionRotatePoint q pt := by
  ext i
  fin_cases i <;> simp [ceres.UnitQuaternionRotatePoint] <;> ring

theorem ceres.QuaternionProduct_neg_left {T : Type} [Field T] (z w : Fin 4 → T) :
    ceres.QuaternionProduct (-z) w = -ceres.QuaternionProduct z w := by
  ext i
  fin_cases i <;> simp [ceres.QuaternionProduct] <;> ring

theorem ceres.QuaternionProduct_neg_right {T : Type} [Field T] (z w : Fin 4 → T) :
    ceres.QuaternionProduct z (-w) = -ceres.QuaternionProduct z w := by
  ext i
  fin_cases i <;> simp [ceres.QuaternionProduct] <;> ring

/-- The squared norm of a quaternion product is the product of the squared
norms. -/
theorem ceres.QuaternionProduct_norm {T : Type} [Field T] (z w : Fin 4 → T) :
    (ceres.QuaternionProduct z w) 0 * (ceres.QuaternionProduct z w) 0
      + (ceres.QuaternionProduct z w) 1 * (ceres.QuaternionProduct z w) 1
      + (ceres.QuaternionProduct z w) 2 * (ceres.QuaternionProduct z w) 2
      + (ceres.QuaternionProduct z w) 3 * (ceres.QuaternionProduct z w) 3
      = (z 0 * z 0 + z 1 * z 1 + z 2 * z 2 + z 3 * z 3)
        * (w 0 * w 0 + w 1 * w 1 + w 2 * w 2 + w 3 * w 3) := by
  simp [ceres.QuaternionProduct]
  ring

/-- The scaled rotation matrix of a quaternion product is the product of the
scaled rotation matrices. -/
theorem ceres.QuaternionToScaledRotation_mul {T : Type} [Field T] (z w : Fin 4 → T) :
    ceres.QuaternionToScaledRotation (ceres.QuaternionProduct z w)
      = ceres.QuaternionToScaledRotation z * ceres.QuaternionToScaledRotation w := by
  ext i j
  fin_cases i <;> fin_cases j <;>
    simp [ceres.QuaternionToScaledRotation, ceres.QuaternionProduct, Matrix.mul_apply,
      Fin.sum_univ_three] <;> ring

/-- C11: for a unit quaternion `q` the quaternion product of `q` with its
conjugate `(w, -x, -y, -z)`, in either order, is the identity quaternion
`(1, 0, 0, 0)` itself, hence the identity up to sign. -/
theorem quaternion_product_conjugate_eq_identity {T : Type} [Field T] (q : Fin 4 → T)
    (hq : q 0 ^ 2 + q 1 ^ 2 + q 2 ^ 2 + q 3 ^ 2 = 1) :
    ceres.QuaternionProduct q ![q 0, -q 1, -q 2, -q 3] = ![1, 0, 0, 0]
    ∧ ceres.QuaternionProduct ![q 0, -q 1, -q 2, -q 3] q = ![1, 0, 0, 0]
    ∧ RotationAlgebra.compose q (RotationAlgebra.invert q) = ![1, 0, 0, 0]
    ∧ RotationAlgebra.compose (RotationAlgebra.invert q) q = ![1, 0, 0, 0] := by
  have h1 : ceres.QuaternionProduct q ![q 0, -q 1, -q 2, -q 3] = ![1, 0, 0, 0] := by
    ext i
    fin_cases i <;> simp [ceres.QuaternionProduct]
    · linear_combination hq
    · ring
    · ring
    · ring
  have h2 : ceres.QuaternionProduct ![q 0, -q 1, -q 2, -q 3] q = ![1, 0, 0, 0] := by
    ext i
    fin_cases i <;> simp [ceres.QuaternionProduct]
    · linear_combination hq
    · ring
    · ring
    · ring
  exact ⟨h1, h2, h1, h2⟩

/-- C11 at the unit quaternion `(1/2, 1/2, 1/2, 1/2)`. -/
theorem quaternion_product_conjugate_eq_identity_witness :
    ceres.QuaternionProduct (![1 / 2, 1 / 2, 1 / 2, 1 / 2] : Fin 4 → ℚ)
        ![1 / 2, -(1 / 2), -(1 / 2), -(1 / 2)] = ![1, 0, 0, 0]
    ∧ ceres.QuaternionProduct (![1 / 2, -(1 / 2), -(1 / 2), -(1 / 2)] : Fin 4 → ℚ)
        ![1 / 2, 1 / 2, 1 / 2, 1 / 2] = ![1, 0, 0, 0] := by
  have h := quaternion_product_conjugate_eq_identity
    (![1 / 2, 1 / 2, 1 / 2, 1 / 2] : Fin 4 → ℚ) (by norm_num)
  exact ⟨by simpa using h.1, by simpa using h.2.1⟩

/-! ## Projection residuals: pose composition, depth sign, quaternion sign -/

/-- C14: for unit quaternions `rig_q` and `rel_q` the camera-frame point of
`RigBundleAdjustmentCostFunction`,
`rotate(QuaternionProduct(rel_q, rig_q), p) + (rotate(rel_q, rig_t) + rel_t)`, is
the two-step transform `rotate(rel_q, rotate(rig_q, p) + rig_t) + rel_t`: first
into the system of the rig, then into the system of the camera within the rig.
The functor therefore returns the pixel difference at the two-step point. -/
theorem rig_camera_point_eq_two_step {T : Type} [Field T] (C : CameraModel T)
    (rig_q rel_q : Fin 4 → T) (rig_t rel_t p : Fin 3 → T)
    (params : Fin C.kNumParams → T) (point2D : Fin 2 → T)
    (hrig : rig_q 0 * rig_q 0 + rig_q 1 * rig_q 1 + rig_q 2 * rig_q 2 + rig_q 3 * rig_q 3 = 1)
    (hrel : rel_q 0 * rel_q 0 + rel_q 1 * rel_q 1 + rel_q 2 * rel_q 2 + rel_q 3 * rel_q 3 = 1) :
    ceres.UnitQuaternionRotatePoint (ceres.QuaternionProduct rel_q rig_q) p
        + (ceres.UnitQuaternionRotatePoint rel_q rig_t + rel_t)
      = ceres.UnitQuaternionRotatePoint rel_q (ceres.UnitQuaternionRotatePoint rig_q p + rig_t)
        + rel_t
    ∧ (RigBundleAdjustmentCostFunction.Create point2D).call C rig_q rig_t rel_q rel_t p params
      = (true,
          ![(C.WorldToImage params
                ((ceres.UnitQuaternionRotatePoint rel_q
                    (ceres.UnitQuaternionRotatePoint rig_q p + rig_t) + rel_t) 0
                  / (ceres.UnitQuaternionRotatePoint rel_q
                    (ceres.UnitQuaternionRotatePoint rig_q p + rig_t) + rel_t) 2)
                ((ceres.UnitQuaternionRotatePoint rel_q
                    (ceres.UnitQuaternionRotatePoint rig_q p + rig_t) + rel_t) 1
                  / (ceres.UnitQuaternionRotatePoint rel_q
                    (ceres.UnitQuaternionRotatePoint rig_q p + rig_t) + rel_t) 2)).1
              - point2D 0,
            (C.WorldToImage params
                ((ceres.UnitQuaternionRotatePoint rel_q
                    (ceres.UnitQuaternionRotatePoint rig_q p + rig_t) + rel_t) 0
                  / (ceres.UnitQuaternionRotatePoint rel_q
                    (ceres.UnitQuaternionRotatePoint rig_q p + rig_t) + rel_t) 2)
                ((ceres.UnitQuaternionRotatePoint rel_q
                    (ceres.UnitQuaternionRotatePoint rig_q p + rig_t) + rel_t) 1
                  / (ceres.UnitQuaternionRotatePoint rel_q
                    (ceres.UnitQuaternionRotatePoint rig_q p + rig_t) + rel_t) 2)).2
              - point2D 1]) := by
  have hprod := ceres.QuaternionProduct_norm rel_q rig_q
  rw [hrig, hrel, mul_one] at hprod
  have hpt : ceres.UnitQuaternionRotatePoint (ceres.QuaternionProduct rel_q rig_q) p
        + (ceres.UnitQuaternionRotatePoint rel_q rig_t + rel_t)
      = ceres.UnitQuaternionRotatePoint rel_q (ceres.UnitQuaternionRotatePoint rig_q p + rig_t)
        + rel_t := by
    rw [ceres.UnitQuaternionRotatePoint_eq_scaledRotation _ p hprod,
      ceres.UnitQuaternionRotatePoint_eq_scaledRotation _ rig_t hrel,
      ceres.UnitQuaternionRotatePoint_eq_scaledRotation _ p hrig,
      ceres.UnitQuaternionRotatePoint_eq_scaledRotation _ _ hrel,
      ceres.QuaternionToScaledRotation_mul, Matrix.mulVec_add, Matrix.mulVec_mulVec, add_assoc]
  refine ⟨hpt, ?_⟩
  rw [← hpt]
  simp [RigBundleAdjustmentCostFunction.call, RigBundleAdjustmentCostFunction.Create]

/-- C14 at a concrete input: `rig_q = (0,1,0,0)`, `rel_q = (0,0,1,0)`,
`rig_t = (1,2,3)`, `rel_t = (4,5,6)`, `p = (7,8,9)`; both sides are
`(-4, -1, 12)`. -/
theorem rig_camera_point_eq_two_step_witness :
    ceres.UnitQuaternionRotatePoint (ceres.QuaternionProduct ![0, 0, 1, 0] ![0, 1, 0, 0])
        (![7, 8, 9] : Fin 3 → ℚ)
        + (ceres.UnitQuaternionRotatePoint ![0, 0, 1, 0] ![1, 2, 3] + ![4, 5, 6])
      = ceres.UnitQuaternionRotatePoint ![0, 0, 1, 0]
          (ceres.UnitQuaternionRotatePoint ![0, 1, 0, 0] ![7, 8, 9] + ![1, 2, 3])
        + ![4, 5, 6]
    ∧ ceres.UnitQuaternionRotatePoint ![0, 0, 1, 0]
          (ceres.UnitQuaternionRotatePoint ![0, 1, 0, 0] (![7, 8, 9] : Fin 3 → ℚ) + ![1, 2, 3])
        + ![4, 5, 6] = ![-4, -1, 12] := by
  refine ⟨(rig_camera_point_eq_two_step (IdentityCameraModel ℚ) ![0, 1, 0, 0] ![0, 0, 1, 0]
    ![1, 2, 3] ![4, 5, 6] ![7, 8, 9] ![] ![0, 0] (by norm_num) (by norm_num)).1, ?_⟩
  ext i
  fin_cases i <;> norm_num [ceres.UnitQuaternionRotatePoint]

/-- C15: when the camera-frame depth `Z` of `(q, t, p)` is not zero, positive or
negative, `BundleAdjustmentCostFunction` returns at `(q, -t, -p)` what it
returns at `(q, t, p)`: the camera-frame point of the former is the negated
camera-frame point of the latter, its depth `-Z` is not zero either, and the
quotients by the depth agree, `(-X)/(-Z) = X/Z` and `(-Y)/(-Z) = Y/Z`.  The
operator has no branch on the sign of the depth. -/
theorem bundle_adjustment_mirror_invariant {T : Type} [Field T] (C : CameraModel T)
    (q : Fin 4 → T) (t p : Fin 3 → T) (params : Fin C.kNumParams → T)
    (point2D : Fin 2 → T)
    (hZ : (ceres.UnitQuaternionRotatePoint q p + t) 2 ≠ 0) :
    ceres.UnitQuaternionRotatePoint q (-p) + -t = -(ceres.UnitQuaternionRotatePoint q p + t)
    ∧ (ceres.UnitQuaternionRotatePoint q (-p) + -t) 2
        = -(ceres.UnitQuaternionRotatePoint q p + t) 2
    ∧ (ceres.UnitQuaternionRotatePoint q (-p) + -t) 2 ≠ 0
    ∧ (ceres.UnitQuaternionRotatePoint q (-p) + -t) 0
          / (ceres.UnitQuaternionRotatePoint q (-p) + -t) 2
        = (ceres.UnitQuaternionRotatePoint q p + t) 0
          / (ceres.UnitQuaternionRotatePoint q p + t) 2
    ∧ (ceres.UnitQuaternionRotatePoint q (-p) + -t) 1
          / (ceres.UnitQuaternionRotatePoint q (-p) + -t) 2
        = (ceres.UnitQuaternionRotatePoint q p + t) 1
          / (ceres.UnitQuaternionRotatePoint q p + t) 2
    ∧ (BundleAdjustmentCostFunction.Create point2D).call C q (-t) (-p) params
      = (BundleAdjustmentCostFunction.Create point2D).call C q t p params := by
  have hpt : ceres.UnitQuaternionRotatePoint q (-p) + -t
      = -(ceres.UnitQuaternionRotatePoint q p + t) := by
    rw [ceres.UnitQuaternionRotatePoint_neg_point, neg_add]
  refine ⟨hpt, ?_, ?_, ?_, ?_, ?_⟩
  · rw [hpt, Pi.neg_apply]
  · rw [hpt, Pi.neg_apply]
    exact neg_ne_zero.mpr hZ
  · rw [hpt, Pi.neg_apply, Pi.neg_apply, neg_div_neg_eq]
  · rw [hpt, Pi.neg_apply, Pi.neg_apply, neg_div_neg_eq]
  · simp only [BundleAdjustmentCostFunction.call, ceres.UnitQuaternionRotatePoint_neg_point,
      Pi.neg_apply, ← neg_add, neg_div_neg_eq]

/-- C15 at a concrete input: identity camera model, `q = (1,0,0,0)`,
`t = (0,0,1)`, `p = (2,4,-5)`, observation `(0,0)`.  The camera-frame point
`(2,4,-4)` lies behind the camera, its mirror image `(-2,-4,4)` at
`(q, -t, -p)` in front of it, and both residuals are `(-1/10, -1/5)`. -/
theorem bundle_adjustment_mirror_invariant_witness :
    (ceres.UnitQuaternionRotatePoint (![1, 0, 0, 0] : Fin 4 → ℚ) ![2, 4, -5] + ![0, 0, 1])
        = ![2, 4, -4]
    ∧ (ceres.UnitQuaternionRotatePoint (![1, 0, 0, 0] : Fin 4 → ℚ) (-![2, 4, -5])
        + -![0, 0, 1]) = ![-2, -4, 4]
    ∧ ((BundleAdjustmentCostFunction.Create ![0, 0]).call (IdentityCameraModel ℚ)
        ![1, 0, 0, 0] ![0, 0, 1] ![2, 4, -5] ![]).2 = ![-(1 / 10), -(1 / 5)]
    ∧ ((BundleAdjustmentCostFunction.Create ![0, 0]).call (IdentityCameraModel ℚ)
        ![1, 0, 0, 0] (-![0, 0, 1]) (-![2, 4, -5]) ![]).2 = ![-(1 / 10), -(1 / 5)] := by
  have hpt : (ceres.UnitQuaternionRotatePoint (![1, 0, 0, 0] : Fin 4 → ℚ) ![2, 4, -5]
      + ![0, 0, 1]) = ![2, 4, -4] := by
    ext i
    fin_cases i <;> norm_num [ceres.UnitQuaternionRotatePoint]
  have hZ : (ceres.UnitQuaternionRotatePoint (![1, 0, 0, 0] : Fin 4 → ℚ) ![2, 4, -5]
      + ![0, 0, 1] : Fin 3 → ℚ) 2 ≠ 0 := by
    rw [hpt]
    norm_num
  have h := bundle_adjustment_mirror_invariant (IdentityCameraModel ℚ) ![1, 0, 0, 0]
    ![0, 0, 1] ![2, 4, -5] ![] ![0, 0] hZ
  have hres : ((BundleAdjustmentCostFunction.Create ![0, 0]).call (IdentityCameraModel ℚ)
      ![1, 0, 0, 0] ![0, 0, 1] ![2, 4, -5] ![]).2 = ![-(1 / 10), -(1 / 5)] := by
    ext i
    fin_cases i <;>
      norm_num [BundleAdjustmentCostFunction.call, BundleAdjustmentCostFunction.Create,
        IdentityCameraModel_WorldToImage, ceres.UnitQuaternionRotatePoint]
  refine ⟨hpt, ?_, hres, ?_⟩
  · rw [h.1, hpt]
    ext i
    fin_cases i <;> simp
  · rw [h.2.2.2.2.2]
    exact hres

/-- C17: negating a quaternion does not change a projection residual:
`BundleAdjustmentCostFunction` at `-q`, `BundleAdjustmentConstantPoseCostFunction`
built from `-q`, and `RigBundleAdjustmentCostFunction` with `rig_q`, `rel_q` or
both negated return what they return without the negation. -/
theorem projection_residual_quaternion_sign_invariant {T : Type} [Field T]
    (C : CameraModel T) (q rig_q rel_q : Fin 4 → T) (t rig_t rel_t p : Fin 3 → T)
    (params : Fin C.kNumParams → T) (point2D : Fin 2 → T) :
    (BundleAdjustmentCostFunction.Create point2D).call C (-q) t p params
      = (BundleAdjustmentCostFunction.Create point2D).call C q t p params
    ∧ (BundleAdjustmentConstantPoseCostFunction.Create (-q) t point2D).call C p params
      = (BundleAdjustmentConstantPoseCostFunction.Create q t point2D).call C p params
    ∧ (RigBundleAdjustmentCostFunction.Create point2D).call C (-rig_q) rig_t rel_q rel_t
        p params
      = (RigBundleAdjustmentCostFunction.Create point2D).call C rig_q rig_t rel_q rel_t
        p params
    ∧ (RigBundleAdjustmentCostFunction.Create point2D).call C rig_q rig_t (-rel_q) rel_t
        p params
      = (RigBundleAdjustmentCostFunction.Create point2D).call C rig_q rig_t rel_q rel_t
        p params
    ∧ (RigBundleAdjustmentCostFunction.Create point2D).call C (-rig_q) rig_t (-rel_q) rel_t
        p params
      = (RigBundleAdjustmentCostFunction.Create point2D).call C rig_q rig_t rel_q rel_t
        p params := by
  have hneg : (![-q 0, -q 1, -q 2, -q 3] : Fin 4 → T) = -![q 0, q 1, q 2, q 3] := by
    ext i
    fin_cases i <;> simp
  refine ⟨?_, ?_, ?_, ?_, ?_⟩
  · simp only [BundleAdjustmentCostFunction.call,
      ceres.UnitQuaternionRotatePoint_neg_quaternion]
  · simp only [BundleAdjustmentConstantPoseCostFunction.call,
      BundleAdjustmentConstantPoseCostFunction.Create, Pi.neg_apply, hneg,
      ceres.UnitQuaternionRotatePoint_neg_quaternion]
  · simp only [RigBundleAdjustmentCostFunction.call, ceres.QuaternionProduct_neg_right,
      ceres.UnitQuaternionRotatePoint_neg_quaternion]
  · simp only [RigBundleAdjustmentCostFunction.call, ceres.QuaternionProduct_neg_left,
      ceres.UnitQuaternionRotatePoint_neg_quaternion]
  · simp only [RigBundleAdjustmentCostFunction.call, ceres.QuaternionProduct_neg_left,
      ceres.QuaternionProduct_neg_right, neg_neg,
      ceres.UnitQuaternionRotatePoint_neg_quaternion]

/-- With the zero translation the essential matrix is zero, the Sampson
denominator is zero, and the two-view residual is no number. -/
theorem RelativePoseCostFunction.call_zero_translation {T : Type} [Field T] [DecidableEq T]
    (rp : RelativePoseCostFunction T) (q : Fin 4 → T) : rp.call q 0 = (true, none) := by
  have hrp : rp = RelativePoseCostFunction.Create ![rp.x1_, rp.y1_] ![rp.x2_, rp.y2_] := rfl
  have hE : ∀ R : Matrix (Fin 3) (Fin 3) T, EpipolarResidual.essential R 0 = 0 := by
    intro R
    have h := EpipolarResidual.essential_smul R 0 0
    simpa using h
  rw [hrp, RelativePoseCostFunction.call_eq_sampson]
  cases ceres.QuaternionToRotation q with
  | none => rfl
  | some R =>
    simp [hE, EpipolarResidual.sampsonDenominator, checkedDiv]

/-- C18: the evaluation operators of `CameraPoseCostFunction`,
`BundleAdjustmentCostFunction`, `BundleAdjustmentConstantPoseCostFunction`,
`RigBundleAdjustmentCostFunction` and `RelativePoseCostFunction` return `true`
for every input, whatever the external routines return; a zero denominator in
the two-view residual leaves the flag `true` and the residual without a
number. -/
theorem evaluation_always_succeeds {T : Type} [LinearOrderedField T] (C : CameraModel T)
    (N : Numerics T) (pose : CameraPoseCostFunction T) (ba : BundleAdjustmentCostFunction T)
    (cp : BundleAdjustmentConstantPoseCostFunction T) (rig : RigBundleAdjustmentCostFunction T)
    (rp : RelativePoseCostFunction T)
    (q q2 : Fin 4 → T) (t t2 p : Fin 3 → T) (params : Fin C.kNumParams → T) :
    (pose.call N q t).1 = true
    ∧ (ba.call C q t p params).1 = true
    ∧ (cp.call C p params).1 = true
    ∧ (rig.call C q t q2 t2 p params).1 = true
    ∧ (rp.call q t).1 = true
    ∧ (ba.call C 0 0 0 params).1 = true
    ∧ (rig.call C 0 0 0 0 0 params).1 = true
    ∧ (pose.call N 0 t).1 = true
    ∧ rp.call 0 t = (true, none)
    ∧ rp.call q 0 = (true, none) := by
  refine ⟨rfl, rfl, rfl, rfl, rfl, rfl, rfl, rfl, ?_, ?_⟩
  · simp [RelativePoseCostFunction.call, ceres.QuaternionToRotation, checkedDiv]
  · exact RelativePoseCostFunction.call_zero_translation rp q

end colmap
